import Mathlib

/-!
Shallow embedding of the autocomplete core of the trino-cli repository
(trie-based suggestion index, SQL context classifier, suggestion assembly,
and the schema metadata cache), together with proofs of the specification
claims about it.

Modelling conventions:
* Go strings are modelled as `List Char`; Go iterates over strings rune by
  rune (`for _, char := range word`), and every concrete input in the spec is
  ASCII, where Go's byte indexing and rune iteration coincide.
* `strings.ToLower` is modelled as a character-wise `Char.toLower` map
  (exact for ASCII, which is all the code and spec exercise).
* Go `map[rune]*TrieNode` is modelled as an association list; the properties
  proved below are insensitive to iteration order.
* Go `int` is modelled as `Int` for scores, `Nat` for non-negative counters
  (limits, distances) where the code only ever passes non-negative values.
-/

namespace TrinoCli

/-- Character-wise lowercasing, modelling `strings.ToLower` (ASCII-exact). -/
def toLowerList (s : List Char) : List Char := s.map Char.toLower

/-! ### Trie (autocomplete trie source file)

`TrieNode` mirrors the Go struct: `Children map[rune]*TrieNode`, `IsWord bool`,
`Word string`, `Score int`. -/

inductive TrieNode where
  | mk (children : List (Char × TrieNode)) (isWord : Bool)
       (word : List Char) (score : Int)

namespace TrieNode

def children : TrieNode → List (Char × TrieNode)
  | .mk c _ _ _ => c

def isWord : TrieNode → Bool
  | .mk _ b _ _ => b

def word : TrieNode → List Char
  | .mk _ _ w _ => w

def score : TrieNode → Int
  | .mk _ _ _ s => s

end TrieNode

/-- The fresh node `&TrieNode{Children: make(map[rune]*TrieNode)}`:
empty children, not a word, zero-valued word and score. -/
def emptyNode : TrieNode := .mk [] false [] 0

/-- Lookup in the children map: `node.Children[char]`. -/
def getChild : List (Char × TrieNode) → Char → Option TrieNode
  | [], _ => none
  | (c, n) :: rest, ch => if c = ch then some n else getChild rest ch

/-- Update/insert in the children map: `node.Children[char] = n`. -/
def setChild : List (Char × TrieNode) → Char → TrieNode → List (Char × TrieNode)
  | [], ch, n => [(ch, n)]
  | (c, m) :: rest, ch, n =>
      if c = ch then (ch, n) :: rest else (c, m) :: setChild rest ch n

/-- The walk/create loop of `Trie.Insert`: walks the (already lowercased)
character path `cs`, creating missing nodes, and at the end sets
`IsWord = true`, `Word = full`, `Score += delta`. -/
def insertNode : TrieNode → List Char → List Char → Int → TrieNode
  | .mk ch iw w sc, [], full, delta => .mk ch true full (sc + delta)
  | .mk ch iw w sc, c :: rest, full, delta =>
      let child := (getChild ch c).getD emptyNode
      .mk (setChild ch c (insertNode child rest full delta)) iw w sc

/-- `Trie.Insert(word, score)`: lowercases, then walks/creates the path. -/
def Trie.insert (t : TrieNode) (word : List Char) (score : Int) : TrieNode :=
  insertNode t (toLowerList word) (toLowerList word) score

/-- The loop of `findNode` from a given node (the argument is already
lowercased by the callers that need it). -/
def findNodeFrom : TrieNode → List Char → Option TrieNode
  | n, [] => some n
  | n, c :: rest => (getChild n.children c).bind fun child => findNodeFrom child rest

/-- `Trie.findNode(prefix)`: lowercases the prefix, then walks it. -/
def Trie.findNode (t : TrieNode) (pfx : List Char) : Option TrieNode :=
  findNodeFrom t (toLowerList pfx)

/-- `Trie.Search(word)`: exact membership of a word. -/
def Trie.search (t : TrieNode) (word : List Char) : Bool :=
  match Trie.findNode t word with
  | none => false
  | some n => n.isWord

/-- The recursion of `BoostWord`: returns the updated root only when the
terminal node for the path exists and `IsWord`; otherwise `none` (the Go
code performs no mutation in that case). -/
def boostNode : TrieNode → List Char → Int → Option TrieNode
  | .mk ch iw w sc, [], amt => if iw then some (.mk ch iw w (sc + amt)) else none
  | .mk ch iw w sc, c :: rest, amt =>
      (getChild ch c).bind fun child =>
        (boostNode child rest amt).map fun child' =>
          .mk (setChild ch c child') iw w sc

/-- `Trie.BoostWord(word, boostAmount) → bool`. -/
def Trie.boostWord (t : TrieNode) (word : List Char) (amt : Int) :
    TrieNode × Bool :=
  match boostNode t (toLowerList word) amt with
  | none => (t, false)
  | some t' => (t', true)

mutual

/-- The `collect` closure of `GetSuggestions`: the `(Word, Score)` pairs of
all `IsWord` nodes in a subtree, visiting the node itself first. -/
def collectNode : TrieNode → List (List Char × Int)
  | .mk children isWord word score =>
      (if isWord then [(word, score)] else []) ++ collectChildren children

def collectChildren : List (Char × TrieNode) → List (List Char × Int)
  | [] => []
  | (_, n) :: rest => collectNode n ++ collectChildren rest

end

/-- One ordered insertion for the descending-by-score sort. -/
def insertDesc (x : List Char × Int) :
    List (List Char × Int) → List (List Char × Int)
  | [] => [x]
  | y :: rest => if y.2 < x.2 then x :: y :: rest else y :: insertDesc x rest

/-- Model of `sort.Slice(s, func(i, j) { return s[i].Score > s[j].Score })`:
a comparison sort producing a permutation that is non-increasing in score.
(The Go sort is unstable; all properties proved below hold for every
score-sorted permutation.) -/
def sortDesc (l : List (List Char × Int)) : List (List Char × Int) :=
  l.foldr insertDesc []

/-- `Trie.GetSuggestions(prefix, limit)`. -/
def Trie.getSuggestions (t : TrieNode) (pfx : List Char) (limit : Nat) :
    List (List Char) :=
  match Trie.findNode t pfx with
  | none => []
  | some n => ((sortDesc (collectNode n)).take limit).map Prod.fst

theorem TrieNode.sizeOf_children_lt (n : TrieNode) :
    sizeOf n.children < sizeOf n := by
  cases n with
  | mk ch iw w sc => simp [TrieNode.children]; omega

mutual

/-- The recursive `traverse` helper of `GetFuzzyMatches`, returning the
sequence of `matches[node.Word] = node.Score - currentDistance*10`
assignments in visit order.  Only the length of Go's `currentPrefix` is ever
read (`nextIndex := len(currentPrefix)`), so it is modelled by `k : Nat`. -/
def fuzzyTraverse (q : List Char) (maxDist : Nat) (n : TrieNode)
    (k d : Nat) : List (List Char × Int) :=
  if d > maxDist then []
  else
    (if n.isWord then [(n.word, n.score - (d : Int) * 10)] else [])
      ++ fuzzyChildren q maxDist n.children k d
      ++ (if k < q.length then fuzzyTraverse q maxDist n (k + 1) (d + 1) else [])
termination_by (maxDist + 1 - d, sizeOf n)
decreasing_by
  · exact Prod.Lex.right _ (TrieNode.sizeOf_children_lt n)
  · exact Prod.Lex.left _ _ (by omega)

/-- The `for char, childNode := range node.Children` loop body of `traverse`:
match when the next query character exists and equals the edge character
(`nextIndex < len(prefix) && rune(prefix[nextIndex]) == char`, i.e.
`q[k]? = some c`), otherwise insert, and also substitute when query
characters remain. -/
def fuzzyChildren (q : List Char) (maxDist : Nat) :
    List (Char × TrieNode) → Nat → Nat → List (List Char × Int)
  | [], _, _ => []
  | (c, child) :: rest, k, d =>
      (if q[k]? = some c then
        fuzzyTraverse q maxDist child (k + 1) d
      else
        fuzzyTraverse q maxDist child k (d + 1)
          ++ (if k < q.length then
                fuzzyTraverse q maxDist child (k + 1) (d + 1)
              else []))
      ++ fuzzyChildren q maxDist rest k d
termination_by l k d => (maxDist + 1 - d, sizeOf l)
decreasing_by
  all_goals
    first
      | exact Prod.Lex.right _ (by simp; try omega)
      | (rcases Nat.lt_or_ge (maxDist + 1 - (d + 1)) (maxDist + 1 - d)
          with hlt | hge
         · exact Prod.Lex.left _ _ hlt
         · have heq : maxDist + 1 - (d + 1) = maxDist + 1 - d := by omega
           rw [heq]
           exact Prod.Lex.right _ (by simp; try omega))

end

/-- One `matches[word] = score` map assignment (last write wins). -/
def mapUpsert : List (List Char × Int) → List Char × Int →
    List (List Char × Int)
  | [], e => [e]
  | (w, s) :: rest, e =>
      if w = e.1 then (w, e.2) :: rest else (w, s) :: mapUpsert rest e

/-- The `matches` map after all assignments of the traversal. -/
def buildMap (entries : List (List Char × Int)) : List (List Char × Int) :=
  entries.foldl mapUpsert []

/-- `Trie.GetFuzzyMatches(prefix, maxDistance, limit)`. -/
def Trie.getFuzzyMatches (t : TrieNode) (pfx : List Char)
    (maxDist limit : Nat) : List (List Char) :=
  let q := toLowerList pfx
  ((sortDesc (buildMap (fuzzyTraverse q maxDist t 0 0))).take limit).map
    Prod.fst

/-! ### The sequence-of-operations view of a trie

A trie in the running system is whatever a sequence of `Insert` and
`BoostWord` calls produces from `NewTrie()`. -/

inductive TrieOp where
  | ins (w : List Char) (s : Int)
  | boost (w : List Char) (a : Int)

def applyOp (t : TrieNode) : TrieOp → TrieNode
  | .ins w s => Trie.insert t w s
  | .boost w a => (Trie.boostWord t w a).1

def buildTrie (ops : List TrieOp) : TrieNode := ops.foldl applyOp emptyNode

/-- The flat dictionary the trie refines: lowercased word ↦ accumulated
score.  `dictAdd` is the effect of one `Insert`, `dictBump` of one
successful `BoostWord`. -/
def dictAdd : List (List Char × Int) → List Char → Int →
    List (List Char × Int)
  | [], w, s => [(w, s)]
  | (u, t) :: rest, w, s =>
      if u = w then (u, t + s) :: rest else (u, t) :: dictAdd rest w s

def dictBump : List (List Char × Int) → List Char → Int →
    List (List Char × Int)
  | [], _, _ => []
  | (u, t) :: rest, w, a =>
      if u = w then (u, t + a) :: rest else (u, t) :: dictBump rest w a

def dictLookup : List (List Char × Int) → List Char → Option Int
  | [], _ => none
  | (u, t) :: rest, w => if u = w then some t else dictLookup rest w

def dictApply (d : List (List Char × Int)) : TrieOp → List (List Char × Int)
  | .ins w s => dictAdd d (toLowerList w) s
  | .boost w a => dictBump d (toLowerList w) a

def dictOf (ops : List TrieOp) : List (List Char × Int) :=
  ops.foldl dictApply []

/-- The terminal entry (word, accumulated score) the trie stores at a raw
character path, if any. -/
def termAt (t : TrieNode) (cs : List Char) : Option (List Char × Int) :=
  match findNodeFrom t cs with
  | none => none
  | some m => if m.isWord then some (m.word, m.score) else none

/-- The accumulated score the trie stores for a word, through the same
lowercasing lookup that `Search`/`BoostWord` use. -/
def Trie.wordScore (t : TrieNode) (w : List Char) : Option Int :=
  (termAt t (toLowerList w)).map Prod.snd

/-- A sequence of `BoostWord` calls for a fixed word; the boolean is the
conjunction of all returned booleans. -/
def boostSeq (t : TrieNode) (w : List Char) : List Int → TrieNode × Bool
  | [] => (t, true)
  | a :: rest =>
      let r := Trie.boostWord t w a
      let r2 := boostSeq r.1 w rest
      (r2.1, r.2 && r2.2)

/-! ### Guarded unfolding lemmas for the fuzzy traversal -/

theorem fuzzyTraverse_gt {q : List Char} {maxDist : Nat} {n : TrieNode}
    {k d : Nat} (h : maxDist < d) : fuzzyTraverse q maxDist n k d = [] := by
  rw [fuzzyTraverse]
  simp [show d > maxDist from h]

theorem fuzzyTraverse_le {q : List Char} {maxDist : Nat} {n : TrieNode}
    {k d : Nat} (h : d ≤ maxDist) :
    fuzzyTraverse q maxDist n k d =
      (if n.isWord then [(n.word, n.score - (d : Int) * 10)] else [])
        ++ fuzzyChildren q maxDist n.children k d
        ++ (if k < q.length then fuzzyTraverse q maxDist n (k + 1) (d + 1)
            else []) := by
  rw [fuzzyTraverse]
  simp [Nat.not_lt.mpr h]

/-! ### Children-map lemmas -/

theorem getChild_setChild (l : List (Char × TrieNode)) (c c' : Char)
    (n : TrieNode) :
    getChild (setChild l c n) c' = if c = c' then some n else getChild l c' := by
  induction l with
  | nil => by_cases h : c = c' <;> simp [setChild, getChild, h]
  | cons p rest ih =>
      obtain ⟨c₀, n₀⟩ := p
      by_cases h0 : c₀ = c
      · by_cases h : c = c' <;> simp [setChild, getChild, h0, h]
      · by_cases h : c₀ = c'
        · subst h
          have hcc : ¬ c = c₀ := fun hh => h0 hh.symm
          simp [setChild, getChild, h0, hcc]
        · simp [setChild, getChild, h0, h, ih]

theorem mem_setChild {c : Char} {n : TrieNode} {p : Char × TrieNode} :
    ∀ {l : List (Char × TrieNode)}, p ∈ setChild l c n → p = (c, n) ∨ p ∈ l := by
  intro l
  induction l with
  | nil => intro hp; simpa [setChild] using hp
  | cons q rest ih =>
      obtain ⟨qc, qn⟩ := q
      intro hp
      rw [setChild] at hp
      by_cases h : qc = c
      · rw [if_pos h] at hp
        rcases List.mem_cons.mp hp with h1 | h1
        · exact Or.inl h1
        · exact Or.inr (List.mem_cons_of_mem _ h1)
      · rw [if_neg h] at hp
        rcases List.mem_cons.mp hp with h1 | h1
        · exact Or.inr (h1 ▸ List.mem_cons_self _ _)
        · rcases ih h1 with h2 | h2
          · exact Or.inl h2
          · exact Or.inr (List.mem_cons_of_mem _ h2)

/-! ### The "non-terminal nodes carry score zero" invariant -/

inductive NT : TrieNode → Prop where
  | mk (children : List (Char × TrieNode)) (isWord : Bool) (word : List Char)
      (score : Int) :
      (isWord = false → score = 0) →
      (∀ p ∈ children, NT p.2) →
      NT (.mk children isWord word score)

theorem NT.emptyNode : NT emptyNode :=
  NT.mk _ _ _ _ (fun _ => rfl) (by intro p hp; simp at hp)

theorem NT.ofChild {n : TrieNode} (h : NT n) {c : Char} {m : TrieNode}
    (hm : getChild n.children c = some m) : NT m := by
  cases h with
  | mk ch iw w sc hsc hch =>
      simp only [TrieNode.children] at hm
      induction ch with
      | nil => simp [getChild] at hm
      | cons p rest ih =>
          obtain ⟨c₀, n₀⟩ := p
          by_cases h0 : c₀ = c
          · rw [getChild, if_pos h0] at hm
            cases hm
            exact hch _ (List.mem_cons_self _ _)
          · rw [getChild, if_neg h0] at hm
            exact ih (fun p hp => hch p (List.mem_cons_of_mem _ hp)) hm

theorem NT.insertNode {n : TrieNode} (h : NT n) (cs full : List Char)
    (δ : Int) : NT (insertNode n cs full δ) := by
  induction cs generalizing n with
  | nil =>
      cases h with
      | mk ch iw w sc hsc hch =>
          exact NT.mk _ _ _ _ (by intro hh; cases hh) hch
  | cons c rest ih =>
      cases h with
      | mk ch iw w sc hsc hch =>
          refine NT.mk _ _ _ _ hsc ?_
          intro p hp
          rcases mem_setChild hp with h1 | h1
          · subst h1
            refine ih ?_
            rcases hgc : getChild ch c with _ | child
            · simpa [hgc] using NT.emptyNode
            · have : NT child :=
                NT.ofChild (NT.mk ch iw w sc hsc hch) (by simpa [TrieNode.children] using hgc)
              simpa [hgc] using this
          · exact hch _ h1

theorem NT.ofFind {n : TrieNode} (h : NT n) {cs : List Char}
    {m : TrieNode} (hm : findNodeFrom n cs = some m) : NT m := by
  induction cs generalizing n with
  | nil => cases hm; exact h
  | cons c rest ih =>
      simp only [findNodeFrom] at hm
      rcases hgc : getChild n.children c with _ | child
      · rw [hgc] at hm; simp at hm
      · rw [hgc] at hm
        simp only [Option.some_bind] at hm
        exact ih (NT.ofChild h hgc) hm

/-! ### `termAt` unfolding -/

theorem termAt_nil (t : TrieNode) :
    termAt t [] = if t.isWord then some (t.word, t.score) else none := by
  simp [termAt, findNodeFrom]

theorem termAt_cons (t : TrieNode) (c : Char) (rest : List Char) :
    termAt t (c :: rest) =
      (getChild t.children c).bind fun child => termAt child rest := by
  rcases hgc : getChild t.children c with _ | child <;>
    simp [termAt, findNodeFrom, hgc]

theorem termAt_emptyNode (cs : List Char) : termAt emptyNode cs = none := by
  cases cs with
  | nil => simp [termAt_nil, emptyNode, TrieNode.isWord]
  | cons c rest => simp [termAt_cons, emptyNode, TrieNode.children, getChild]

/-! ### `Insert` path lemmas -/

theorem termAt_insertNode_self (cs : List Char) :
    ∀ (n : TrieNode) (full : List Char) (δ : Int),
    termAt (insertNode n cs full δ) cs
      = some (full, ((findNodeFrom n cs).map TrieNode.score).getD 0 + δ) := by
  induction cs with
  | nil =>
      intro n full δ
      cases n with
      | mk ch iw w sc =>
          simp [insertNode, termAt_nil, TrieNode.isWord, TrieNode.word,
            TrieNode.score, findNodeFrom]
  | cons c rest ih =>
      intro n full δ
      cases n with
      | mk ch iw w sc =>
          rw [insertNode, termAt_cons]
          simp only [TrieNode.children]
          rw [getChild_setChild, if_pos rfl, Option.some_bind, ih]
          congr 2
          rcases hgc : getChild ch c with _ | child
          · simp [findNodeFrom, TrieNode.children, hgc]
            cases rest with
            | nil => simp [findNodeFrom, emptyNode, TrieNode.score]
            | cons c2 r2 =>
                simp [findNodeFrom, emptyNode, TrieNode.children, getChild]
          · simp [findNodeFrom, TrieNode.children, hgc]

theorem termAt_insertNode_other (cs : List Char) :
    ∀ (n : TrieNode) (full cs' : List Char) (δ : Int), cs' ≠ cs →
    termAt (insertNode n cs full δ) cs' = termAt n cs' := by
  induction cs with
  | nil =>
      intro n full cs' δ hne
      cases n with
      | mk ch iw w sc =>
          cases cs' with
          | nil => exact absurd rfl hne
          | cons c' rest' =>
              rw [insertNode]
              rw [termAt_cons, termAt_cons]
              simp [TrieNode.children]
  | cons c rest ih =>
      intro n full cs' δ hne
      cases n with
      | mk ch iw w sc =>
          cases cs' with
          | nil =>
              rw [insertNode]
              simp [termAt_nil, TrieNode.isWord, TrieNode.word, TrieNode.score]
          | cons c' rest' =>
              rw [insertNode]
              rw [termAt_cons, termAt_cons]
              simp only [TrieNode.children, getChild_setChild]
              by_cases hc : c = c'
              · subst hc
                have hner : rest' ≠ rest := by
                  intro hh; exact hne (by rw [hh])
                rw [if_pos rfl]
                simp only [Option.some_bind]
                rw [ih _ full rest' δ hner]
                rcases hgc : getChild ch c with _ | child
                · simp only [Option.none_bind]
                  cases rest' with
                  | nil => simp [termAt_nil, emptyNode, TrieNode.isWord]
                  | cons c2 r2 =>
                      simp [termAt_cons, emptyNode, TrieNode.children, getChild]
                · simp
              · rw [if_neg hc]

/-! ### `BoostWord` path lemmas -/

theorem boostNode_of_termAt_none (cs : List Char) :
    ∀ (n : TrieNode) (a : Int), termAt n cs = none → boostNode n cs a = none := by
  induction cs with
  | nil =>
      intro n a h
      cases n with
      | mk ch iw w sc =>
          rw [termAt_nil] at h
          simp only [TrieNode.isWord] at h
          rw [boostNode]
          cases iw with
          | false => simp
          | true => simp at h
  | cons c rest ih =>
      intro n a h
      cases n with
      | mk ch iw w sc =>
          rw [termAt_cons] at h
          rcases hgc : getChild ch c with _ | child
          · rw [boostNode, hgc]; rfl
          · simp only [TrieNode.children, hgc, Option.some_bind] at h
            rw [boostNode, hgc]
            simp [ih child a h]

theorem boostNode_of_termAt_some (cs : List Char) :
    ∀ (n : TrieNode) (a : Int) (w : List Char) (s : Int),
      termAt n cs = some (w, s) →
      ∃ n', boostNode n cs a = some n' ∧ termAt n' cs = some (w, s + a) ∧
        ∀ cs', cs' ≠ cs → termAt n' cs' = termAt n cs' := by
  induction cs with
  | nil =>
      intro n a w s h
      cases n with
      | mk ch iw w0 sc =>
          rw [termAt_nil] at h
          simp only [TrieNode.isWord, TrieNode.word, TrieNode.score] at h
          cases iw with
          | false => simp at h
          | true =>
              simp only [if_pos, Option.some.injEq, Prod.mk.injEq] at h
              obtain ⟨hw, hs⟩ := h
              subst hw; subst hs
              refine ⟨.mk ch true w0 (sc + a), ?_, ?_, ?_⟩
              · rw [boostNode]; simp
              · rw [termAt_nil]
                simp [TrieNode.isWord, TrieNode.word, TrieNode.score]
              · intro cs' hne
                cases cs' with
                | nil => exact absurd rfl hne
                | cons c' rest' =>
                    rw [termAt_cons, termAt_cons]
                    simp [TrieNode.children]
  | cons c rest ih =>
      intro n a w s h
      cases n with
      | mk ch iw w0 sc =>
          rw [termAt_cons] at h
          rcases hgc : getChild ch c with _ | child
          · simp only [TrieNode.children, hgc, Option.none_bind] at h
            cases h
          · simp only [TrieNode.children, hgc, Option.some_bind] at h
            obtain ⟨child', hb, ht, hother⟩ := ih child a w s h
            refine ⟨.mk (setChild ch c child') iw w0 sc, ?_, ?_, ?_⟩
            · rw [boostNode, hgc]
              simp [hb]
            · rw [termAt_cons]
              simp [TrieNode.children, getChild_setChild, ht]
            · intro cs' hne
              cases cs' with
              | nil => simp [termAt_nil, TrieNode.isWord, TrieNode.word,
                  TrieNode.score]
              | cons c' rest' =>
                  rw [termAt_cons, termAt_cons]
                  simp only [TrieNode.children, getChild_setChild]
                  by_cases hc : c = c'
                  · subst hc
                    have hner : rest' ≠ rest := by
                      intro hh; exact hne (by rw [hh])
                    rw [if_pos rfl, hgc]
                    simp [hother rest' hner]
                  · rw [if_neg hc]

theorem NT.boost {cs : List Char} :
    ∀ {n n' : TrieNode} {a : Int}, NT n → boostNode n cs a = some n' →
      NT n' := by
  induction cs with
  | nil =>
      intro n n' a h hb
      cases h with
      | mk ch iw w sc hsc hch =>
          rw [boostNode] at hb
          cases iw with
          | false => simp at hb
          | true =>
              simp only [if_pos, Option.some.injEq] at hb
              subst hb
              exact NT.mk _ _ _ _ (by intro hh; cases hh) hch
  | cons c rest ih =>
      intro n n' a h hb
      cases h with
      | mk ch iw w sc hsc hch =>
          rw [boostNode] at hb
          rcases hgc : getChild ch c with _ | child
          · rw [hgc] at hb; simp at hb
          · rw [hgc] at hb
            simp only [Option.some_bind] at hb
            rcases hbc : boostNode child rest a with _ | child'
            · rw [hbc] at hb; simp at hb
            · rw [hbc] at hb
              simp only [Option.map_some', Option.some.injEq] at hb
              subst hb
              refine NT.mk _ _ _ _ hsc ?_
              intro p hp
              rcases mem_setChild hp with h1 | h1
              · subst h1
                have hcnt : NT child :=
                  NT.ofChild (NT.mk ch iw w sc hsc hch)
                    (by simpa [TrieNode.children] using hgc)
                exact ih hcnt hbc
              · exact hch _ h1

/-! ### Dictionary lemmas -/

theorem dictLookup_dictAdd (w : List Char) (s : Int) :
    ∀ (d : List (List Char × Int)) (w' : List Char),
    dictLookup (dictAdd d w s) w' =
      if w' = w then some ((dictLookup d w).getD 0 + s)
      else dictLookup d w' := by
  intro d
  induction d with
  | nil =>
      intro w'
      by_cases h : w' = w
      · subst h; simp [dictAdd, dictLookup]
      · simp [dictAdd, dictLookup, h, Ne.symm h]
  | cons p rest ih =>
      obtain ⟨u, t⟩ := p
      intro w'
      by_cases hu : u = w
      · subst hu
        by_cases h : w' = u
        · subst h; simp [dictAdd, dictLookup]
        · simp [dictAdd, dictLookup, h, Ne.symm h]
      · rw [dictAdd, if_neg hu]
        by_cases h : w' = u
        · subst h
          simp [dictLookup, hu]
        · simp [dictLookup, Ne.symm h, Ne.symm hu, ih w', h, hu]

theorem dictLookup_dictBump (w : List Char) (a : Int) :
    ∀ (d : List (List Char × Int)) (w' : List Char),
    dictLookup (dictBump d w a) w' =
      if w' = w then (dictLookup d w).map (· + a)
      else dictLookup d w' := by
  intro d
  induction d with
  | nil =>
      intro w'
      by_cases h : w' = w <;> simp [dictBump, dictLookup, h]
  | cons p rest ih =>
      obtain ⟨u, t⟩ := p
      intro w'
      by_cases hu : u = w
      · subst hu
        by_cases h : w' = u
        · subst h; simp [dictBump, dictLookup]
        · simp [dictBump, dictLookup, h, Ne.symm h]
      · rw [dictBump, if_neg hu]
        by_cases h : w' = u
        · subst h
          simp [dictLookup, hu]
        · simp [dictLookup, Ne.symm h, Ne.symm hu, ih w', h, hu]

/-! ### The trie refines the dictionary -/

def Good (t : TrieNode) (d : List (List Char × Int)) : Prop :=
  NT t ∧ ∀ cs, termAt t cs = (dictLookup d cs).map fun s => (cs, s)

theorem good_empty : Good emptyNode [] :=
  ⟨NT.emptyNode, fun cs => by simp [termAt_emptyNode, dictLookup]⟩

theorem rawScore_eq {t : TrieNode} (hNT : NT t) (cs : List Char) :
    ((findNodeFrom t cs).map TrieNode.score).getD 0
      = ((termAt t cs).map Prod.snd).getD 0 := by
  rcases hf : findNodeFrom t cs with _ | m
  · simp [termAt, hf]
  · have hm : NT m := hNT.ofFind hf
    cases hm with
    | mk ch iw w sc hsc hch =>
        cases iw with
        | false =>
            simp [termAt, hf, TrieNode.isWord, TrieNode.score, hsc rfl]
        | true =>
            simp [termAt, hf, TrieNode.isWord, TrieNode.score]

theorem Good.step {t : TrieNode} {d : List (List Char × Int)}
    (h : Good t d) (op : TrieOp) :
    Good (applyOp t op) (dictApply d op) := by
  obtain ⟨hNT, hdict⟩ := h
  cases op with
  | ins w s =>
      refine ⟨hNT.insertNode _ _ _, ?_⟩
      intro cs
      rw [applyOp, dictApply, Trie.insert]
      by_cases hcs : cs = toLowerList w
      · subst hcs
        rw [termAt_insertNode_self, dictLookup_dictAdd, if_pos rfl]
        rw [rawScore_eq hNT, hdict]
        rcases dictLookup d (toLowerList w) with _ | v <;> simp
      · rw [termAt_insertNode_other _ _ _ _ _ hcs, dictLookup_dictAdd,
          if_neg hcs, hdict]
  | boost w a =>
      rcases hterm : termAt t (toLowerList w) with _ | p
      · have hb := boostNode_of_termAt_none _ t a hterm
        have hsame : applyOp t (.boost w a) = t := by
          simp [applyOp, Trie.boostWord, hb]
        refine ⟨by rw [hsame]; exact hNT, ?_⟩
        intro cs
        rw [hsame, dictApply, dictLookup_dictBump]
        by_cases hcs : cs = toLowerList w
        · subst hcs
          have hnone : dictLookup d (toLowerList w) = none := by
            have := hdict (toLowerList w)
            rw [hterm] at this
            exact Option.map_eq_none'.mp this.symm
          rw [if_pos rfl, hnone, hterm]
          rfl
        · rw [if_neg hcs, hdict]
      · obtain ⟨wq, sq⟩ := p
        have hkey : wq = toLowerList w ∧ dictLookup d (toLowerList w) = some sq := by
          have := hdict (toLowerList w)
          rw [hterm] at this
          rcases hdl : dictLookup d (toLowerList w) with _ | v
          · rw [hdl] at this; simp at this
          · rw [hdl] at this
            simp only [Option.map_some', Option.some.injEq, Prod.mk.injEq] at this
            exact ⟨this.1, by rw [this.2]⟩
        obtain ⟨n', hb, ht, hother⟩ :=
          boostNode_of_termAt_some _ t a wq sq hterm
        have hsame : applyOp t (.boost w a) = n' := by
          simp [applyOp, Trie.boostWord, hb]
        refine ⟨by rw [hsame]; exact NT.boost hNT hb, ?_⟩
        intro cs
        rw [hsame, dictApply, dictLookup_dictBump]
        by_cases hcs : cs = toLowerList w
        · subst hcs
          rw [if_pos rfl, hkey.2, ht, hkey.1]
          rfl
        · rw [if_neg hcs, hother cs hcs, hdict]

theorem good_buildTrie (ops : List TrieOp) :
    Good (buildTrie ops) (dictOf ops) := by
  have hgen : ∀ (l : List TrieOp) (t : TrieNode) (d : List (List Char × Int)),
      Good t d → Good (l.foldl applyOp t) (l.foldl dictApply d) := by
    intro l
    induction l with
    | nil => intro t d h; exact h
    | cons op rest ih => intro t d h; exact ih _ _ (h.step op)
  exact hgen ops emptyNode [] good_empty

/-! ### Which words have ever been inserted -/

def insertedIn (ops : List TrieOp) (u : List Char) : Prop :=
  ∃ w s, TrieOp.ins w s ∈ ops ∧ toLowerList w = u

theorem dictLookup_foldl_none_iff (u : List Char) :
    ∀ (l : List TrieOp) (d : List (List Char × Int)),
    dictLookup (l.foldl dictApply d) u = none ↔
      (dictLookup d u = none ∧ ∀ w s, TrieOp.ins w s ∈ l → toLowerList w ≠ u) := by
  intro l
  induction l with
  | nil => intro d; simp
  | cons op rest ih =>
      intro d
      rw [List.foldl_cons, ih]
      cases op with
      | ins w s =>
          constructor
          · rintro ⟨h1, h2⟩
            rw [dictApply, dictLookup_dictAdd] at h1
            by_cases hu : u = toLowerList w
            · rw [if_pos hu] at h1; cases h1
            · rw [if_neg hu] at h1
              refine ⟨h1, ?_⟩
              intro w' s' hmem
              rcases List.mem_cons.mp hmem with h3 | h3
              · cases h3
                exact fun hh => hu hh.symm
              · exact h2 w' s' h3
          · rintro ⟨h1, h2⟩
            have hne : toLowerList w ≠ u :=
              h2 w s (List.mem_cons_self _ _)
            constructor
            · rw [dictApply, dictLookup_dictAdd, if_neg (Ne.symm hne)]
              exact h1
            · intro w' s' h3
              exact h2 w' s' (List.mem_cons_of_mem _ h3)
      | boost w a =>
          have hsame : dictLookup (dictApply d (.boost w a)) u = none ↔
              dictLookup d u = none := by
            rw [dictApply, dictLookup_dictBump]
            by_cases hu : u = toLowerList w
            · subst hu
              rw [if_pos rfl]
              simp
            · rw [if_neg hu]
          rw [hsame]
          constructor
          · rintro ⟨h1, h2⟩
            refine ⟨h1, ?_⟩
            intro w' s' hmem
            rcases List.mem_cons.mp hmem with h3 | h3
            · cases h3
            · exact h2 w' s' h3
          · rintro ⟨h1, h2⟩
            exact ⟨h1, fun w' s' h3 => h2 w' s' (List.mem_cons_of_mem _ h3)⟩

theorem termAt_buildTrie_none_iff (ops : List TrieOp) (u : List Char) :
    termAt (buildTrie ops) u = none ↔ ¬ insertedIn ops u := by
  have hg := (good_buildTrie ops).2 u
  rw [hg]
  have := dictLookup_foldl_none_iff u ops []
  rw [dictOf]
  constructor
  · intro h
    have hnone : dictLookup (ops.foldl dictApply []) u = none :=
      Option.map_eq_none'.mp h
    obtain ⟨_, h2⟩ := this.mp hnone
    rintro ⟨w, s, hmem, hlow⟩
    exact h2 w s hmem hlow
  · intro h
    have : dictLookup (ops.foldl dictApply []) u = none := by
      refine this.mpr ⟨by simp [dictLookup], ?_⟩
      intro w s hmem hlow
      exact h ⟨w, s, hmem, hlow⟩
    rw [this]
    rfl

/-! ### Score bookkeeping (claim C3) -/

theorem search_eq_false_iff (t : TrieNode) (w : List Char) :
    Trie.search t w = false ↔ termAt t (toLowerList w) = none := by
  rcases hf : findNodeFrom t (toLowerList w) with _ | m
  · simp [Trie.search, Trie.findNode, termAt, hf]
  · rcases hiw : m.isWord with _ | _ <;>
      simp [Trie.search, Trie.findNode, termAt, hf, hiw]

theorem wordScore_insert {t : TrieNode} (hNT : NT t) (w : List Char)
    (δ : Int) :
    Trie.wordScore (Trie.insert t w δ) w
      = some ((Trie.wordScore t w).getD 0 + δ) := by
  rw [Trie.wordScore, Trie.insert, termAt_insertNode_self, rawScore_eq hNT]
  rw [Trie.wordScore]
  rcases termAt t (toLowerList w) with _ | p <;> simp

theorem boostWord_present {t : TrieNode} {w : List Char} {s : Int}
    (h : Trie.wordScore t w = some s) (a : Int) :
    (Trie.boostWord t w a).2 = true ∧
    Trie.wordScore (Trie.boostWord t w a).1 w = some (s + a) := by
  rcases hterm : termAt t (toLowerList w) with _ | p
  · rw [Trie.wordScore, hterm] at h; cases h
  · obtain ⟨w0, s0⟩ := p
    have hs : s0 = s := by rw [Trie.wordScore, hterm] at h; simpa using h
    subst hs
    obtain ⟨n', hb, ht, _⟩ := boostNode_of_termAt_some _ t a w0 s0 hterm
    constructor
    · simp [Trie.boostWord, hb]
    · simp [Trie.boostWord, hb, Trie.wordScore, ht]

theorem boostWord_absent {t : TrieNode} {w : List Char}
    (h : Trie.search t w = false) (a : Int) :
    Trie.boostWord t w a = (t, false) := by
  have hnone := (search_eq_false_iff t w).mp h
  simp [Trie.boostWord, boostNode_of_termAt_none _ t a hnone]

theorem boostSeq_adds (w : List Char) :
    ∀ (bs : List Int) (t : TrieNode) (s : Int), Trie.wordScore t w = some s →
      (boostSeq t w bs).2 = true ∧
      Trie.wordScore (boostSeq t w bs).1 w = some (s + bs.sum) := by
  intro bs
  induction bs with
  | nil => intro t s h; simpa [boostSeq] using h
  | cons a rest ih =>
      intro t s h
      obtain ⟨hok, hsc⟩ := boostWord_present h a
      obtain ⟨hok2, hsc2⟩ := ih (Trie.boostWord t w a).1 (s + a) hsc
      refine ⟨by simp [boostSeq, hok, hok2], ?_⟩
      rw [boostSeq]
      simp only [hsc2, List.sum_cons, Option.some.injEq]
      omega

/-- C3: for every word w first inserted with initial score s0 (it was never
inserted before) and then subjected to any sequence of BoostWord calls with
amounts b1…bn, every boost returns true and the stored score of w equals
s0 + b1 + … + bn; inserting an already-present word adds its scoreDelta to
the existing score rather than overwriting it; and BoostWord on a word that
was never inserted returns false and leaves the entire trie unchanged. -/
theorem c3_monotonic_scoring (ops : List TrieOp) (w : List Char) (s0 : Int)
    (bs : List Int) (hnew : ¬ insertedIn ops (toLowerList w)) :
    (boostSeq (Trie.insert (buildTrie ops) w s0) w bs).2 = true
    ∧ Trie.wordScore (boostSeq (Trie.insert (buildTrie ops) w s0) w bs).1 w
        = some (s0 + bs.sum)
    ∧ (∀ (u : List Char) (su δ : Int),
        Trie.wordScore (buildTrie ops) u = some su →
        Trie.wordScore (Trie.insert (buildTrie ops) u δ) u = some (su + δ))
    ∧ (∀ (u : List Char) (a : Int), ¬ insertedIn ops (toLowerList u) →
        Trie.boostWord (buildTrie ops) u a = (buildTrie ops, false)) := by
  have hNT : NT (buildTrie ops) := (good_buildTrie ops).1
  have htermnone : termAt (buildTrie ops) (toLowerList w) = none :=
    (termAt_buildTrie_none_iff ops (toLowerList w)).mpr hnew
  have hins : Trie.wordScore (Trie.insert (buildTrie ops) w s0) w = some s0 := by
    rw [wordScore_insert hNT, Trie.wordScore, htermnone]
    simp
  obtain ⟨hok, hsc⟩ := boostSeq_adds w bs _ s0 hins
  refine ⟨hok, hsc, ?_, ?_⟩
  · intro u su δ hsu
    rw [wordScore_insert hNT, hsu]
    rfl
  · intro u a hu
    have : termAt (buildTrie ops) (toLowerList u) = none :=
      (termAt_buildTrie_none_iff ops (toLowerList u)).mpr hu
    exact boostWord_absent ((search_eq_false_iff _ u).mpr this) a

/-- Witness for C3 at a concrete input: word "sum", initial score 4,
boosts [7, 2], on the empty prior history. -/
theorem c3_monotonic_scoring_witness :
    ¬ insertedIn [] (toLowerList "sum".toList)
    ∧ ((boostSeq (Trie.insert (buildTrie []) "sum".toList 4) "sum".toList
          [7, 2]).2 = true
      ∧ Trie.wordScore (boostSeq (Trie.insert (buildTrie []) "sum".toList 4)
          "sum".toList [7, 2]).1 "sum".toList = some (4 + [7, 2].sum)
      ∧ (∀ (u : List Char) (su δ : Int),
          Trie.wordScore (buildTrie []) u = some su →
          Trie.wordScore (Trie.insert (buildTrie []) u δ) u = some (su + δ))
      ∧ (∀ (u : List Char) (a : Int), ¬ insertedIn [] (toLowerList u) →
          Trie.boostWord (buildTrie []) u a = (buildTrie [], false))) :=
  ⟨by simp [insertedIn],
   c3_monotonic_scoring [] "sum".toList 4 [7, 2] (by simp [insertedIn])⟩

/-! ### Structural induction over the nested trie type -/

theorem sizeOf_snd_lt_of_mem {ch : List (Char × TrieNode)}
    {p : Char × TrieNode} (hp : p ∈ ch) (iw : Bool) (w : List Char)
    (sc : Int) : sizeOf p.2 < sizeOf (TrieNode.mk ch iw w sc) := by
  have h1 := List.sizeOf_lt_of_mem hp
  obtain ⟨a, b⟩ := p
  simp only [Prod.mk.sizeOf_spec, TrieNode.mk.sizeOf_spec] at h1 ⊢
  omega

def TrieNode.recAux {motive : TrieNode → Prop}
    (h : ∀ ch iw w sc, (∀ p ∈ ch, motive p.2) →
      motive (TrieNode.mk ch iw w sc)) :
    ∀ n, motive n
  | .mk ch iw w sc => h ch iw w sc fun p hp => TrieNode.recAux h p.2
termination_by n => sizeOf n
decreasing_by
  exact sizeOf_snd_lt_of_mem hp iw w sc

/-! ### The path/word well-formedness invariant -/

inductive WF : TrieNode → List Char → Prop where
  | mk (children : List (Char × TrieNode)) (isWord : Bool) (word : List Char)
      (score : Int) (path : List Char) :
      (isWord = true → word = path) →
      (children.map Prod.fst).Nodup →
      (∀ p ∈ children, WF p.2 (path ++ [p.1])) →
      WF (.mk children isWord word score) path

theorem WF.emptyNodeWF (path : List Char) : WF emptyNode path :=
  WF.mk _ _ _ _ _ (by intro hh; cases hh) (by simp) (by intro p hp; simp at hp)

theorem getChild_mem : ∀ {l : List (Char × TrieNode)} {c : Char}
    {m : TrieNode}, getChild l c = some m → (c, m) ∈ l := by
  intro l
  induction l with
  | nil => intro c m h; simp [getChild] at h
  | cons p rest ih =>
      intro c m h
      obtain ⟨c₀, n₀⟩ := p
      rw [getChild] at h
      by_cases hc : c₀ = c
      · rw [if_pos hc] at h
        cases h
        subst hc
        exact List.mem_cons_self _ _
      · rw [if_neg hc] at h
        exact List.mem_cons_of_mem _ (ih h)

theorem getChild_of_mem : ∀ {l : List (Char × TrieNode)} {c : Char}
    {m : TrieNode}, (l.map Prod.fst).Nodup → (c, m) ∈ l →
    getChild l c = some m := by
  intro l
  induction l with
  | nil => intro c m _ h; simp at h
  | cons p rest ih =>
      intro c m hnd h
      obtain ⟨c₀, n₀⟩ := p
      simp only [List.map_cons, List.nodup_cons] at hnd
      rcases List.mem_cons.mp h with h1 | h1
      · cases h1
        rw [getChild, if_pos rfl]
      · have hne : c₀ ≠ c := by
          intro hh
          subst hh
          exact hnd.1 (List.mem_map_of_mem Prod.fst h1)
        rw [getChild, if_neg hne]
        exact ih hnd.2 h1

theorem keys_setChild (c : Char) (n : TrieNode) :
    ∀ l : List (Char × TrieNode),
    (setChild l c n).map Prod.fst =
      if c ∈ l.map Prod.fst then l.map Prod.fst
      else l.map Prod.fst ++ [c] := by
  intro l
  induction l with
  | nil => simp [setChild]
  | cons p rest ih =>
      obtain ⟨c₀, n₀⟩ := p
      by_cases hc : c₀ = c
      · subst hc
        simp [setChild]
      · rw [setChild, if_neg hc]
        simp only [List.map_cons, List.mem_cons, ih]
        by_cases hmem : c ∈ rest.map Prod.fst
        · rw [if_pos hmem, if_pos (Or.inr hmem)]
        · rw [if_neg hmem, if_neg ?_]
          · simp
          · rintro (h1 | h1)
            · exact hc h1.symm
            · exact hmem h1

theorem nodup_keys_setChild {l : List (Char × TrieNode)} (c : Char)
    (n : TrieNode) (h : (l.map Prod.fst).Nodup) :
    ((setChild l c n).map Prod.fst).Nodup := by
  rw [keys_setChild]
  by_cases hmem : c ∈ l.map Prod.fst
  · rw [if_pos hmem]; exact h
  · rw [if_neg hmem]
    simp [List.nodup_append, h, hmem]

theorem WF.insertNodeWF : ∀ (cs : List Char) {n : TrieNode}
    {path : List Char}, WF n path → ∀ (full : List Char) (δ : Int),
    full = path ++ cs → WF (insertNode n cs full δ) path := by
  intro cs
  induction cs with
  | nil =>
      intro n path h full δ hfull
      cases h with
      | mk ch iw w sc path hw hnd hch =>
          rw [TrinoCli.insertNode]
          exact WF.mk _ _ _ _ _ (fun _ => by simpa using hfull) hnd hch
  | cons c rest ih =>
      intro n path h full δ hfull
      cases h with
      | mk ch iw w sc path hw hnd hch =>
          rw [TrinoCli.insertNode]
          refine WF.mk _ _ _ _ _ hw (nodup_keys_setChild c _ hnd) ?_
          intro p hp
          rcases mem_setChild hp with h1 | h1
          · subst h1
            refine ih ?_ full δ ?_
            · rcases hgc : getChild ch c with _ | child
              · simpa [hgc] using WF.emptyNodeWF (path ++ [c])
              · have : WF child (path ++ [c]) := hch _ (getChild_mem hgc)
                simpa [hgc] using this
            · rw [hfull]; simp
          · exact hch _ h1

theorem WF.boostWF : ∀ (cs : List Char) {n n' : TrieNode} {path : List Char}
    {a : Int}, WF n path → boostNode n cs a = some n' → WF n' path := by
  intro cs
  induction cs with
  | nil =>
      intro n n' path a h hb
      cases h with
      | mk ch iw w sc path hw hnd hch =>
          rw [boostNode] at hb
          cases iw with
          | false => simp at hb
          | true =>
              simp only [if_pos, Option.some.injEq] at hb
              subst hb
              exact WF.mk _ _ _ _ _ hw hnd hch
  | cons c rest ih =>
      intro n n' path a h hb
      cases h with
      | mk ch iw w sc path hw hnd hch =>
          rw [boostNode] at hb
          rcases hgc : getChild ch c with _ | child
          · rw [hgc] at hb; simp at hb
          · rw [hgc] at hb
            simp only [Option.some_bind] at hb
            rcases hbc : boostNode child rest a with _ | child'
            · rw [hbc] at hb; simp at hb
            · rw [hbc] at hb
              simp only [Option.map_some', Option.some.injEq] at hb
              subst hb
              refine WF.mk _ _ _ _ _ hw (nodup_keys_setChild c _ hnd) ?_
              intro p hp
              rcases mem_setChild hp with h1 | h1
              · subst h1
                exact ih (hch (c, child) (getChild_mem hgc)) hbc
              · exact hch _ h1

theorem WF.buildTrie (ops : List TrieOp) : WF (buildTrie ops) [] := by
  have hgen : ∀ (l : List TrieOp) (t : TrieNode), WF t [] →
      WF (l.foldl applyOp t) [] := by
    intro l
    induction l with
    | nil => intro t h; exact h
    | cons op rest ih =>
        intro t h
        refine ih _ ?_
        cases op with
        | ins w s => exact WF.insertNodeWF _ h _ _ (by simp)
        | boost w a =>
            rw [applyOp, Trie.boostWord]
            rcases hb : boostNode t (toLowerList w) a with _ | t'
            · exact h
            · exact WF.boostWF _ h hb
  exact hgen ops TrinoCli.emptyNode (WF.emptyNodeWF [])

theorem WF.ofFindWF : ∀ (q : List Char) {n m : TrieNode} {path : List Char},
    WF n path → findNodeFrom n q = some m → WF m (path ++ q) := by
  intro q
  induction q with
  | nil =>
      intro n m path h hf
      cases hf
      simpa using h
  | cons c rest ih =>
      intro n m path h hf
      simp only [findNodeFrom] at hf
      rcases hgc : getChild n.children c with _ | child
      · rw [hgc] at hf; simp at hf
      · rw [hgc] at hf
        simp only [Option.some_bind] at hf
        cases h with
        | mk ch iw w sc path hw hnd hch =>
            have hchild : WF child (path ++ [c]) :=
              hch _ (getChild_mem (by simpa [TrieNode.children] using hgc))
            have := ih hchild hf
            simpa using this

end TrinoCli

namespace TrinoCli

/-! ### What `collect` gathers -/

theorem mem_collectChildren {e : List Char × Int} :
    ∀ {l : List (Char × TrieNode)},
    (e ∈ collectChildren l ↔ ∃ p ∈ l, e ∈ collectNode p.2) := by
  intro l
  induction l with
  | nil => simp [collectChildren]
  | cons p rest ih =>
      obtain ⟨c, m⟩ := p
      rw [collectChildren]
      simp only [List.mem_append, ih, List.mem_cons]
      constructor
      · rintro (h1 | ⟨p, hp, h2⟩)
        · exact ⟨(c, m), Or.inl rfl, h1⟩
        · exact ⟨p, Or.inr hp, h2⟩
      · rintro ⟨p, hp | hp, h2⟩
        · subst hp; exact Or.inl h2
        · exact Or.inr ⟨p, hp, h2⟩

theorem mem_collect_iff :
    ∀ (n : TrieNode) (path : List Char), WF n path →
    ∀ (w : List Char) (s : Int),
    ((w, s) ∈ collectNode n ↔
      ∃ q, w = path ++ q ∧ termAt n q = some (w, s)) := by
  intro n
  induction n using TrieNode.recAux with
  | h ch iw w0 sc ihc =>
      intro path hwf w s
      cases hwf with
      | mk ch iw w0 sc path hw hnd hch =>
          rw [collectNode]
          simp only [List.mem_append]
          constructor
          · rintro (h1 | h1)
            · cases iw with
              | false => simp at h1
              | true =>
                  simp only [if_pos, List.mem_singleton, Prod.mk.injEq] at h1
                  obtain ⟨hww, hss⟩ := h1
                  refine ⟨[], by simp [hww, hw rfl], ?_⟩
                  rw [termAt_nil]
                  simp [TrieNode.isWord, TrieNode.word, TrieNode.score,
                    hww, hss]
            · obtain ⟨p, hp, h2⟩ := mem_collectChildren.mp h1
              obtain ⟨c, m⟩ := p
              obtain ⟨q', hq1, hq2⟩ :=
                (ihc _ hp (path ++ [c]) (hch _ hp) w s).mp h2
              refine ⟨c :: q', by simp [hq1], ?_⟩
              rw [termAt_cons]
              simp only [TrieNode.children]
              rw [getChild_of_mem hnd hp]
              simpa using hq2
          · rintro ⟨q, hq1, hq2⟩
            cases q with
            | nil =>
                rw [termAt_nil] at hq2
                cases iw with
                | false => simp [TrieNode.isWord] at hq2
                | true =>
                    simp only [TrieNode.isWord, if_pos, TrieNode.word,
                      TrieNode.score, Option.some.injEq, Prod.mk.injEq] at hq2
                    left
                    simp [hq2.1, hq2.2]
            | cons c q' =>
                rw [termAt_cons] at hq2
                simp only [TrieNode.children] at hq2
                rcases hgc : getChild ch c with _ | m
                · rw [hgc] at hq2; simp at hq2
                · rw [hgc] at hq2
                  simp only [Option.some_bind] at hq2
                  have hp : (c, m) ∈ ch := getChild_mem hgc
                  right
                  refine mem_collectChildren.mpr ⟨(c, m), hp, ?_⟩
                  refine (ihc _ hp (path ++ [c]) (hch _ hp) w s).mpr ?_
                  exact ⟨q', by simp [hq1], hq2⟩

theorem collect_word_shape {n : TrieNode} {path : List Char}
    (hwf : WF n path) {w : List Char} {s : Int}
    (h : (w, s) ∈ collectNode n) : ∃ q, w = path ++ q :=
  ((mem_collect_iff n path hwf w s).mp h).elim fun q hq => ⟨q, hq.1⟩

end TrinoCli

namespace TrinoCli

theorem collectChildren_keys_nodup_aux :
    ∀ (l : List (Char × TrieNode)) (path : List Char),
      (l.map Prod.fst).Nodup →
      (∀ p ∈ l, WF p.2 (path ++ [p.1])) →
      (∀ p ∈ l, ((collectNode p.2).map Prod.fst).Nodup) →
      ((collectChildren l).map Prod.fst).Nodup := by
  intro l
  induction l with
  | nil => intro path _ _ _; simp [collectChildren]
  | cons p rest ih =>
      obtain ⟨c, m⟩ := p
      intro path hnd hwf hnod
      rw [collectChildren, List.map_append, List.nodup_append]
      refine ⟨hnod _ (List.mem_cons_self _ _), ?_, ?_⟩
      · simp only [List.map_cons, List.nodup_cons] at hnd
        exact ih path hnd.2 (fun p hp => hwf p (List.mem_cons_of_mem _ hp))
          (fun p hp => hnod p (List.mem_cons_of_mem _ hp))
      · intro w hw1 hw2
        obtain ⟨⟨w1, s1⟩, he1, hfst1⟩ := List.mem_map.mp hw1
        obtain ⟨⟨w2, s2⟩, he2, hfst2⟩ := List.mem_map.mp hw2
        obtain ⟨q1, hq1⟩ :=
          collect_word_shape (hwf _ (List.mem_cons_self _ _)) he1
        obtain ⟨⟨c', m'⟩, hp', he2'⟩ := mem_collectChildren.mp he2
        obtain ⟨q2, hq2⟩ :=
          collect_word_shape (hwf _ (List.mem_cons_of_mem _ hp')) he2'
        simp only at hfst1 hfst2
        have hww : w1 = w2 := by rw [hfst1, hfst2]
        have hcc : c = c' := by
          have : path ++ [c] ++ q1 = path ++ [c'] ++ q2 := by
            rw [← hq1, ← hq2, hww]
          simp only [List.append_assoc, List.singleton_append,
            List.append_cancel_left_eq, List.cons.injEq] at this
          exact this.1
        subst hcc
        simp only [List.map_cons, List.nodup_cons] at hnd
        exact hnd.1 (List.mem_map_of_mem Prod.fst hp')

theorem collect_keys_nodup :
    ∀ (n : TrieNode) (path : List Char), WF n path →
      ((collectNode n).map Prod.fst).Nodup := by
  intro n
  induction n using TrieNode.recAux with
  | h ch iw w0 sc ihc =>
      intro path hwf
      cases hwf with
      | mk ch iw w0 sc path hw hnd hch =>
          rw [collectNode, List.map_append, List.nodup_append]
          refine ⟨?_, ?_, ?_⟩
          · cases iw <;> simp
          · exact collectChildren_keys_nodup_aux ch path hnd hch
              (fun p hp => ihc p hp _ (hch p hp))
          · intro w hw1 hw2
            cases iw with
            | false => simp at hw1
            | true =>
                simp only [if_pos, List.map_cons, List.map_nil,
                  List.mem_singleton] at hw1
                obtain ⟨⟨w2, s2⟩, he2, hfst2⟩ := List.mem_map.mp hw2
                obtain ⟨⟨c', m'⟩, hp', he2'⟩ := mem_collectChildren.mp he2
                obtain ⟨q2, hq2⟩ := collect_word_shape (hch _ hp') he2'
                have : w.length = path.length := by rw [hw1, hw rfl]
                rw [← hfst2] at this
                simp only at this
                rw [hq2] at this
                simp at this

end TrinoCli

namespace TrinoCli

/-! ### Sorting lemmas for `sortDesc` -/

theorem insertDesc_perm (x : List Char × Int) :
    ∀ l : List (List Char × Int), List.Perm (insertDesc x l) (x :: l) := by
  intro l
  induction l with
  | nil => simp [insertDesc]
  | cons y rest ih =>
      rw [insertDesc]
      by_cases h : y.2 < x.2
      · rw [if_pos h]
      · rw [if_neg h]
        exact List.Perm.trans (List.Perm.cons y ih) (List.Perm.swap x y rest)

theorem sortDesc_perm :
    ∀ l : List (List Char × Int), List.Perm (sortDesc l) l := by
  intro l
  induction l with
  | nil => simp [sortDesc]
  | cons x rest ih =>
      rw [sortDesc, List.foldr_cons]
      refine List.Perm.trans (insertDesc_perm x _) (List.Perm.cons x ?_)
      exact ih

theorem insertDesc_sorted (x : List Char × Int) :
    ∀ {l : List (List Char × Int)},
      l.Sorted (fun a b => b.2 ≤ a.2) →
      (insertDesc x l).Sorted (fun a b => b.2 ≤ a.2) := by
  intro l
  induction l with
  | nil => intro _; simp [insertDesc]
  | cons y rest ih =>
      intro hs
      have hy := (List.pairwise_cons.mp hs).1
      have htail := (List.pairwise_cons.mp hs).2
      rw [insertDesc]
      by_cases h : y.2 < x.2
      · rw [if_pos h]
        refine List.pairwise_cons.mpr ⟨?_, hs⟩
        intro z hz
        rcases List.mem_cons.mp hz with h1 | h1
        · subst h1; exact le_of_lt h
        · exact le_trans (hy z h1) (le_of_lt h)
      · rw [if_neg h]
        refine List.pairwise_cons.mpr ⟨?_, ih htail⟩
        intro z hz
        have hz' : z ∈ x :: rest :=
          (List.Perm.mem_iff (insertDesc_perm x rest)).mp hz
        rcases List.mem_cons.mp hz' with h1 | h1
        · subst h1; exact le_of_not_lt h
        · exact hy z h1

theorem sortDesc_sorted :
    ∀ l : List (List Char × Int),
      (sortDesc l).Sorted (fun a b => b.2 ≤ a.2) := by
  intro l
  induction l with
  | nil => simp [sortDesc]
  | cons x rest ih =>
      rw [sortDesc, List.foldr_cons]
      exact insertDesc_sorted x ih

theorem mem_take_of_count_le :
    ∀ (l : List (List Char × Int)) (e : List Char × Int),
      l.Sorted (fun a b => b.2 ≤ a.2) → e ∈ l →
      ∀ limit : Nat, l.countP (fun x => decide (e.2 ≤ x.2)) ≤ limit →
      e ∈ l.take limit := by
  intro l
  induction l with
  | nil => intro e _ he; simp at he
  | cons f rest ih =>
      intro e hs he limit hcount
      have hcons := List.pairwise_cons.mp hs
      rcases List.mem_cons.mp he with he1 | he1
      · subst he1
        have h1 : 0 < limit := by
          rw [List.countP_cons] at hcount
          simp at hcount
          omega
        obtain ⟨lim, rfl⟩ : ∃ lim, limit = lim + 1 :=
          ⟨limit - 1, by omega⟩
        simp [List.take_succ_cons]
      · have hf : e.2 ≤ f.2 := hcons.1 e he1
        have hc : rest.countP (fun x => decide (e.2 ≤ x.2)) + 1 ≤ limit := by
          rw [List.countP_cons] at hcount
          simp [hf] at hcount
          omega
        obtain ⟨lim, rfl⟩ : ∃ lim, limit = lim + 1 :=
          ⟨limit - 1, by omega⟩
        rw [List.take_succ_cons]
        exact List.mem_cons_of_mem _ (ih e hcons.2 he1 lim (by omega))

/-! ### Path composition and dictionary membership helpers -/

theorem findNodeFrom_append :
    ∀ (a b : List Char) (t : TrieNode),
    findNodeFrom t (a ++ b) =
      (findNodeFrom t a).bind fun m => findNodeFrom m b := by
  intro a
  induction a with
  | nil => intro b t; simp [findNodeFrom]
  | cons c rest ih =>
      intro b t
      rw [List.cons_append, findNodeFrom, findNodeFrom]
      rcases hgc : getChild t.children c with _ | child
      · simp
      · simp [ih]

theorem termAt_append (a b : List Char) (t : TrieNode) :
    termAt t (a ++ b) = (findNodeFrom t a).bind fun m => termAt m b := by
  rw [termAt, findNodeFrom_append]
  rcases findNodeFrom t a with _ | m
  · simp
  · simp [termAt]

theorem dictLookup_some_mem :
    ∀ {d : List (List Char × Int)} {u : List Char} {s : Int},
    dictLookup d u = some s → (u, s) ∈ d := by
  intro d
  induction d with
  | nil => intro u s h; simp [dictLookup] at h
  | cons p rest ih =>
      intro u s h
      obtain ⟨v, t⟩ := p
      rw [dictLookup] at h
      by_cases hv : v = u
      · rw [if_pos hv] at h
        cases h
        subst hv
        exact List.mem_cons_self _ _
      · rw [if_neg hv] at h
        exact List.mem_cons_of_mem _ (ih h)

theorem insertedIn_lookup {ops : List TrieOp} {u : List Char}
    (h : insertedIn ops u) :
    ∃ σ, dictLookup (dictOf ops) u = some σ := by
  rcases hdl : dictLookup (dictOf ops) u with _ | σ
  · exfalso
    rw [dictOf] at hdl
    obtain ⟨_, h2⟩ := (dictLookup_foldl_none_iff u ops []).mp hdl
    obtain ⟨w, s, hmem, hlow⟩ := h
    exact h2 w s hmem hlow
  · exact ⟨σ, rfl⟩

end TrinoCli

namespace TrinoCli

/-- The accumulated score of a word in the dictionary view (0 if absent). -/
def storedScore (ops : List TrieOp) (u : List Char) : Int :=
  (dictLookup (dictOf ops) (toLowerList u)).getD 0

/-- The number of stored (lowercased) words sharing the lowercased prefix
`p` whose accumulated score is at least that of `u`. -/
def shareGE (ops : List TrieOp) (p u : List Char) : Nat :=
  (dictOf ops).countP fun e =>
    (toLowerList p).isPrefixOf e.1 && decide (storedScore ops u ≤ e.2)

/-- C2 (amended): every word returned by GetSuggestions(p, limit) extends
the lowercased prefix; and for every inserted word w and every prefix p of
w, the lowercased form of w is returned whenever limit is at least the
number of stored words sharing the lowercased prefix with equal-or-higher
accumulated score. -/
theorem c2_prefix_correctness (ops : List TrieOp) (p : List Char)
    (limit : Nat) :
    (∀ w ∈ Trie.getSuggestions (buildTrie ops) p limit,
        ∃ q, w = toLowerList p ++ q)
    ∧ (∀ w, insertedIn ops (toLowerList w) → (∃ r, w = p ++ r) →
        shareGE ops p w ≤ limit →
        toLowerList w ∈ Trie.getSuggestions (buildTrie ops) p limit) := by
  constructor
  · intro w hw
    rcases hfind : findNodeFrom (buildTrie ops) (toLowerList p) with _ | m
    · rw [Trie.getSuggestions, Trie.findNode, hfind] at hw
      simp at hw
    · rw [Trie.getSuggestions, Trie.findNode, hfind] at hw
      obtain ⟨e, he, hfst⟩ := List.mem_map.mp hw
      have he2 : e ∈ collectNode m :=
        (List.Perm.mem_iff (sortDesc_perm _)).mp (List.mem_of_mem_take he)
      have hwf_m : WF m (toLowerList p) := by
        have := WF.ofFindWF (toLowerList p) (WF.buildTrie ops) hfind
        simpa using this
      obtain ⟨u, s⟩ := e
      obtain ⟨q, hq⟩ := collect_word_shape hwf_m he2
      exact ⟨q, by rw [← hfst, hq]⟩
  · intro w hins hpfx hlim
    obtain ⟨σ, hσ⟩ := insertedIn_lookup hins
    have hterm : termAt (buildTrie ops) (toLowerList w)
        = some (toLowerList w, σ) := by
      rw [(good_buildTrie ops).2 (toLowerList w), hσ]
      rfl
    obtain ⟨r, hr⟩ := hpfx
    have hwsplit : toLowerList w = toLowerList p ++ toLowerList r := by
      rw [hr, toLowerList, List.map_append]
      rfl
    rcases hfind : findNodeFrom (buildTrie ops) (toLowerList p) with _ | m
    · exfalso
      rw [hwsplit, termAt_append, hfind] at hterm
      simp at hterm
    · have hwf_m : WF m (toLowerList p) := by
        have := WF.ofFindWF (toLowerList p) (WF.buildTrie ops) hfind
        simpa using this
      have htm : termAt m (toLowerList r) = some (toLowerList w, σ) := by
        rw [hwsplit, termAt_append, hfind] at hterm
        rw [hwsplit]
        simpa using hterm
      have hmem : (toLowerList w, σ) ∈ collectNode m :=
        (mem_collect_iff m (toLowerList p) hwf_m _ _).mpr
          ⟨toLowerList r, hwsplit, htm⟩
      have hstored : storedScore ops w = σ := by
        rw [storedScore, hσ]
        rfl
      have hcount : (collectNode m).countP (fun x => decide (σ ≤ x.2))
          ≤ shareGE ops p w := by
        rw [List.countP_eq_length_filter, shareGE,
          List.countP_eq_length_filter]
        refine List.Subperm.length_le (List.subperm_of_subset ?_ ?_)
        · exact (List.Nodup.of_map _ (collect_keys_nodup m _ hwf_m)).filter _
        · intro e hemem
          obtain ⟨hecol, hprop⟩ := List.mem_filter.mp hemem
          obtain ⟨u, s⟩ := e
          obtain ⟨q, hq, htq⟩ := (mem_collect_iff m _ hwf_m u s).mp hecol
          have hterm2 : termAt (buildTrie ops) (toLowerList p ++ q)
              = some (u, s) := by
            rw [termAt_append, hfind]
            simpa using htq
          have hlk := (good_buildTrie ops).2 (toLowerList p ++ q)
          rw [hterm2] at hlk
          rcases hdl2 : dictLookup (dictOf ops) (toLowerList p ++ q)
            with _ | v
          · rw [hdl2] at hlk; simp at hlk
          · rw [hdl2] at hlk
            simp only [Option.map_some', Option.some.injEq,
              Prod.mk.injEq] at hlk
            have hmem2 : (u, s) ∈ dictOf ops := by
              refine dictLookup_some_mem (s := s) ?_
              rw [hlk.1, hdl2, hlk.2]
            refine List.mem_filter.mpr ⟨hmem2, ?_⟩
            have hpu : (toLowerList p).isPrefixOf u = true := by
              rw [hlk.1]
              exact List.isPrefixOf_iff_prefix.mpr ⟨q, rfl⟩
            have hges : σ ≤ s := by simpa using hprop
            simp [hpu, hstored, hges]
      have hsorted := sortDesc_sorted (collectNode m)
      have hmem_sorted : (toLowerList w, σ) ∈ sortDesc (collectNode m) :=
        (List.Perm.mem_iff (sortDesc_perm _)).mpr hmem
      have hcount2 : (sortDesc (collectNode m)).countP
          (fun x => decide (σ ≤ x.2)) ≤ limit := by
        rw [List.Perm.countP_eq _ (sortDesc_perm _)]
        omega
      have htake := mem_take_of_count_le _ (toLowerList w, σ) hsorted
        hmem_sorted limit hcount2
      rw [Trie.getSuggestions, Trie.findNode, hfind]
      exact List.mem_map_of_mem Prod.fst htake

end TrinoCli

namespace TrinoCli

/-! ### C2 witness and counterexample -/

/-- Counterexample to C2 as literally stated: after inserting "A",
GetSuggestions("A", 1) returns ["a"], and "a" does not have the query
string "A" as a prefix (nor is the inserted spelling "A" returned): the
trie lowercases everything. -/
theorem c2_counterexample :
    Trie.getSuggestions (buildTrie [TrieOp.ins "A".toList 1]) "A".toList 1
      = ["a".toList]
    ∧ ∀ q, "a".toList ≠ "A".toList ++ q := by
  refine ⟨by decide, ?_⟩
  intro q h
  have h2 : ('a' : Char) = 'A' := by
    have := congrArg (fun l => l.headD ' ') h
    simpa using this
  exact absurd h2 (by decide)

/-- Witness for the amended C2 on a concrete trie: with "SELECT" (score 10)
and "sum" (score 4) inserted, prefix "s" and limit 2 return "sum". -/
theorem c2_prefix_correctness_witness :
    insertedIn [TrieOp.ins "SELECT".toList 10, TrieOp.ins "sum".toList 4]
        (toLowerList "sum".toList)
    ∧ (∃ r, "sum".toList = "s".toList ++ r)
    ∧ shareGE [TrieOp.ins "SELECT".toList 10, TrieOp.ins "sum".toList 4]
        "s".toList "sum".toList ≤ 2
    ∧ toLowerList "sum".toList ∈
        Trie.getSuggestions
          (buildTrie [TrieOp.ins "SELECT".toList 10,
            TrieOp.ins "sum".toList 4]) "s".toList 2 :=
  ⟨⟨"sum".toList, 4, by simp, by decide⟩, ⟨"um".toList, by decide⟩,
   by decide,
   (c2_prefix_correctness _ _ 2).2 "sum".toList
     ⟨"sum".toList, 4, by simp, by decide⟩ ⟨"um".toList, by decide⟩
     (by decide)⟩

/-! ### Lowercasing is idempotent -/

theorem toNat_ofNat_valid {n : Nat} (h : n.isValidChar) :
    (Char.ofNat n).toNat = n := by
  rw [Char.ofNat, dif_pos h]
  rfl

theorem charToLower_eq (c : Char) :
    c.toLower =
      if 65 ≤ c.toNat ∧ c.toNat ≤ 90 then Char.ofNat (c.toNat + 32)
      else c := by
  rw [Char.toLower]

theorem charToLower_toNat (c : Char) :
    c.toLower.toNat
      = if 65 ≤ c.toNat ∧ c.toNat ≤ 90 then c.toNat + 32 else c.toNat := by
  rw [charToLower_eq]
  by_cases h : 65 ≤ c.toNat ∧ c.toNat ≤ 90
  · rw [if_pos h, if_pos h]
    exact toNat_ofNat_valid (Or.inl (by omega))
  · rw [if_neg h, if_neg h]

theorem charToLower_idem (c : Char) : c.toLower.toLower = c.toLower := by
  by_cases h : 65 ≤ c.toNat ∧ c.toNat ≤ 90
  · have h1 : c.toLower.toNat = c.toNat + 32 := by
      rw [charToLower_toNat, if_pos h]
    rw [charToLower_eq c.toLower, if_neg (by omega)]
  · rw [charToLower_eq c.toLower,
      if_neg (by rw [charToLower_toNat, if_neg h]; omega)]

theorem toLowerList_idem (s : List Char) :
    toLowerList (toLowerList s) = toLowerList s := by
  rw [toLowerList, toLowerList, List.map_map]
  exact List.map_congr_left fun c _ => charToLower_idem c

/-! ### Dictionary keys are lowercased insert arguments -/

theorem mem_dictAdd {d : List (List Char × Int)} {w : List Char} {s : Int}
    {e : List Char × Int} (h : e ∈ dictAdd d w s) :
    e.1 = w ∨ ∃ s', (e.1, s') ∈ d := by
  induction d with
  | nil => simp [dictAdd] at h; simp [h]
  | cons p rest ih =>
      obtain ⟨u, t⟩ := p
      rw [dictAdd] at h
      by_cases hu : u = w
      · rw [if_pos hu] at h
        rcases List.mem_cons.mp h with h1 | h1
        · subst h1; exact Or.inl hu
        · exact Or.inr ⟨e.2, by simp [h1]⟩
      · rw [if_neg hu] at h
        rcases List.mem_cons.mp h with h1 | h1
        · subst h1; exact Or.inr ⟨t, List.mem_cons_self _ _⟩
        · rcases ih h1 with h2 | ⟨s', h2⟩
          · exact Or.inl h2
          · exact Or.inr ⟨s', List.mem_cons_of_mem _ h2⟩

theorem mem_dictBump {d : List (List Char × Int)} {w : List Char} {a : Int}
    {e : List Char × Int} (h : e ∈ dictBump d w a) :
    ∃ s', (e.1, s') ∈ d := by
  induction d with
  | nil => simp [dictBump] at h
  | cons p rest ih =>
      obtain ⟨u, t⟩ := p
      rw [dictBump] at h
      by_cases hu : u = w
      · rw [if_pos hu] at h
        rcases List.mem_cons.mp h with h1 | h1
        · subst h1; exact ⟨t, List.mem_cons_self _ _⟩
        · exact ⟨e.2, List.mem_cons_of_mem _ (by simp [h1])⟩
      · rw [if_neg hu] at h
        rcases List.mem_cons.mp h with h1 | h1
        · subst h1; exact ⟨t, List.mem_cons_self _ _⟩
        · obtain ⟨s', h2⟩ := ih h1
          exact ⟨s', List.mem_cons_of_mem _ h2⟩

theorem dict_keys_lower (ops : List TrieOp) :
    ∀ e ∈ dictOf ops, ∃ v, e.1 = toLowerList v := by
  have hgen : ∀ (l : List TrieOp) (d : List (List Char × Int)),
      (∀ e ∈ d, ∃ v, e.1 = toLowerList v) →
      ∀ e ∈ l.foldl dictApply d, ∃ v, e.1 = toLowerList v := by
    intro l
    induction l with
    | nil => intro d h; exact h
    | cons op rest ih =>
        intro d h
        refine ih _ ?_
        intro e he
        cases op with
        | ins w s =>
            rw [dictApply] at he
            rcases mem_dictAdd he with h1 | ⟨s', h1⟩
            · exact ⟨w, h1⟩
            · obtain ⟨v, hv⟩ := h _ h1
              exact ⟨v, hv⟩
        | boost w a =>
            rw [dictApply] at he
            obtain ⟨s', h1⟩ := mem_dictBump he
            obtain ⟨v, hv⟩ := h _ h1
            exact ⟨v, hv⟩
  exact hgen ops [] (by simp)

theorem collect_buildTrie_lower (ops : List TrieOp) :
    ∀ e ∈ collectNode (buildTrie ops), toLowerList e.1 = e.1 := by
  intro e he
  obtain ⟨u, s⟩ := e
  obtain ⟨q, hq, ht⟩ :=
    (mem_collect_iff (buildTrie ops) [] (WF.buildTrie ops) u s).mp he
  have hlk := (good_buildTrie ops).2 q
  rw [ht] at hlk
  rcases hdl : dictLookup (dictOf ops) q with _ | v
  · rw [hdl] at hlk; simp at hlk
  · rw [hdl] at hlk
    simp only [Option.map_some', Option.some.injEq, Prod.mk.injEq] at hlk
    obtain ⟨v', hv⟩ := dict_keys_lower ops _ (dictLookup_some_mem hdl)
    simp only at hv
    have hu : u = q := by simpa using hq
    rw [hu, hv, toLowerList_idem]

end TrinoCli

namespace TrinoCli

/-! ### Edit distance (insert/delete/substitute), for the fuzzy claims -/

def lev : List Char → List Char → Nat
  | [], ys => ys.length
  | _ :: xs, [] => xs.length + 1
  | x :: xs, y :: ys =>
      if x = y then lev xs ys
      else 1 + min (lev xs (y :: ys)) (min (lev (x :: xs) ys) (lev xs ys))

theorem lev_nil_left (t : List Char) : lev [] t = t.length := by
  simp [lev]

theorem lev_nil_right (s : List Char) : lev s [] = s.length := by
  cases s <;> simp [lev]

theorem lev_cons_cons (x : Char) (xs : List Char) (y : Char)
    (ys : List Char) :
    lev (x :: xs) (y :: ys) =
      if x = y then lev xs ys
      else 1 + min (lev xs (y :: ys))
        (min (lev (x :: xs) ys) (lev xs ys)) := by
  simp [lev]

/-- Adding or removing one leading character changes the edit distance by
at most one, in all four directions. -/
theorem lev_adj :
    ∀ (N : Nat) (s t : List Char), s.length + t.length ≤ N →
      (∀ c, lev (c :: s) t ≤ 1 + lev s t) ∧
      (∀ c, lev s (c :: t) ≤ 1 + lev s t) ∧
      (∀ c, lev s t ≤ 1 + lev (c :: s) t) ∧
      (∀ c, lev s t ≤ 1 + lev s (c :: t)) := by
  intro N
  induction N with
  | zero =>
      intro s t hlen
      have hs : s = [] := by
        cases s with
        | nil => rfl
        | cons a b => simp at hlen
      have ht : t = [] := by
        cases t with
        | nil => rfl
        | cons a b => simp at hlen
      subst hs; subst ht
      refine ⟨?_, ?_, ?_, ?_⟩ <;> intro c <;>
        simp [lev_nil_left, lev_nil_right]
  | succ N ihN =>
      intro s t hlen
      refine ⟨?_, ?_, ?_, ?_⟩
      · intro c
        cases t with
        | nil => rw [lev_nil_right, lev_nil_right, List.length_cons]; omega
        | cons y ys =>
            rw [lev_cons_cons]
            by_cases hcy : c = y
            · rw [if_pos hcy]
              subst hcy
              exact (ihN s ys (by simp at hlen ⊢; omega)).2.2.2 c
            · rw [if_neg hcy]
              have h1 : min (lev s (y :: ys))
                  (min (lev (c :: s) ys) (lev s ys)) ≤ lev s (y :: ys) :=
                min_le_left _ _
              omega
      · intro c
        cases s with
        | nil => rw [lev_nil_left, lev_nil_left, List.length_cons]; omega
        | cons x xs =>
            rw [lev_cons_cons]
            by_cases hxc : x = c
            · rw [if_pos hxc]
              subst hxc
              exact (ihN xs t (by simp at hlen ⊢; omega)).2.2.1 x
            · rw [if_neg hxc]
              have h1 : min (lev xs (c :: t))
                  (min (lev (x :: xs) t) (lev xs t)) ≤ lev (x :: xs) t :=
                le_trans (min_le_right _ _) (min_le_left _ _)
              omega
      · intro c
        cases t with
        | nil => rw [lev_nil_right, lev_nil_right, List.length_cons]; omega
        | cons y ys =>
            rw [lev_cons_cons]
            by_cases hcy : c = y
            · rw [if_pos hcy]
              subst hcy
              exact (ihN s ys (by simp at hlen ⊢; omega)).2.1 c
            · rw [if_neg hcy]
              have ih1 := (ihN s ys (by simp at hlen ⊢; omega)).2.1 y
              have ih2 := (ihN s ys (by simp at hlen ⊢; omega)).2.2.1 c
              omega
      · intro c
        cases s with
        | nil => rw [lev_nil_left, lev_nil_left, List.length_cons]; omega
        | cons x xs =>
            rw [lev_cons_cons]
            by_cases hxc : x = c
            · rw [if_pos hxc]
              subst hxc
              exact (ihN xs t (by simp at hlen ⊢; omega)).1 x
            · rw [if_neg hxc]
              have ih1 := (ihN xs t (by simp at hlen ⊢; omega)).1 x
              have ih2 := (ihN xs t (by simp at hlen ⊢; omega)).2.2.2 c
              omega

theorem lev_cons_left_le (c : Char) (s t : List Char) :
    lev (c :: s) t ≤ 1 + lev s t :=
  (lev_adj (s.length + t.length) s t le_rfl).1 c

theorem lev_cons_right_le (c : Char) (s t : List Char) :
    lev s (c :: t) ≤ 1 + lev s t :=
  (lev_adj (s.length + t.length) s t le_rfl).2.1 c

end TrinoCli

namespace TrinoCli

/-! ### Decomposing and re-entering the fuzzy traversal -/

theorem mem_fuzzyChildren {q : List Char} {maxDist : Nat}
    {e : List Char × Int} :
    ∀ {l : List (Char × TrieNode)} {k d : Nat},
    e ∈ fuzzyChildren q maxDist l k d →
    ∃ c child, (c, child) ∈ l ∧
      ((q[k]? = some c ∧ e ∈ fuzzyTraverse q maxDist child (k + 1) d) ∨
       (¬ q[k]? = some c ∧ e ∈ fuzzyTraverse q maxDist child k (d + 1)) ∨
       (¬ q[k]? = some c ∧ k < q.length ∧
         e ∈ fuzzyTraverse q maxDist child (k + 1) (d + 1))) := by
  intro l
  induction l with
  | nil => intro k d h; rw [fuzzyChildren] at h; simp at h
  | cons p rest ih =>
      obtain ⟨c, child⟩ := p
      intro k d h
      rw [fuzzyChildren] at h
      rcases List.mem_append.mp h with h1 | h1
      · by_cases hc : q[k]? = some c
        · rw [if_pos hc] at h1
          exact ⟨c, child, List.mem_cons_self _ _, Or.inl ⟨hc, h1⟩⟩
        · rw [if_neg hc] at h1
          rcases List.mem_append.mp h1 with h2 | h2
          · exact ⟨c, child, List.mem_cons_self _ _,
              Or.inr (Or.inl ⟨hc, h2⟩)⟩
          · by_cases hk : k < q.length
            · rw [if_pos hk] at h2
              exact ⟨c, child, List.mem_cons_self _ _,
                Or.inr (Or.inr ⟨hc, hk, h2⟩)⟩
            · rw [if_neg hk] at h2
              simp at h2
      · obtain ⟨c', child', hmem, hcase⟩ := ih h1
        exact ⟨c', child', List.mem_cons_of_mem _ hmem, hcase⟩

theorem fuzzy_self_mem {q : List Char} {maxDist : Nat} {n : TrieNode}
    {k d : Nat} (h : d ≤ maxDist) (hw : n.isWord = true) :
    (n.word, n.score - (d : Int) * 10) ∈ fuzzyTraverse q maxDist n k d := by
  rw [fuzzyTraverse_le h]
  simp [hw]

theorem fuzzy_children_sub {q : List Char} {maxDist : Nat} {n : TrieNode}
    {k d : Nat} (h : d ≤ maxDist) {e : List Char × Int}
    (he : e ∈ fuzzyChildren q maxDist n.children k d) :
    e ∈ fuzzyTraverse q maxDist n k d := by
  rw [fuzzyTraverse_le h]
  simp only [List.append_assoc, List.mem_append]
  exact Or.inr (Or.inl he)

theorem fuzzy_delete_sub {q : List Char} {maxDist : Nat} {n : TrieNode}
    {k d : Nat} (h : d ≤ maxDist) (hk : k < q.length)
    {e : List Char × Int}
    (he : e ∈ fuzzyTraverse q maxDist n (k + 1) (d + 1)) :
    e ∈ fuzzyTraverse q maxDist n k d := by
  rw [fuzzyTraverse_le h]
  simp only [List.append_assoc, List.mem_append]
  exact Or.inr (Or.inr (by rw [if_pos hk]; exact he))

theorem fuzzyChildren_mem_match {q : List Char} {maxDist : Nat} {c : Char}
    {child : TrieNode} {e : List Char × Int} :
    ∀ {l : List (Char × TrieNode)} {k d : Nat}, (c, child) ∈ l →
    q[k]? = some c → e ∈ fuzzyTraverse q maxDist child (k + 1) d →
    e ∈ fuzzyChildren q maxDist l k d := by
  intro l
  induction l with
  | nil => intro k d h; simp at h
  | cons p rest ih =>
      obtain ⟨c₀, ch₀⟩ := p
      intro k d hmem hc he
      rw [fuzzyChildren]
      rcases List.mem_cons.mp hmem with h1 | h1
      · obtain ⟨hc1, hc2⟩ := Prod.mk.injEq .. ▸ h1
        subst hc1; subst hc2
        exact List.mem_append.mpr (Or.inl (by rw [if_pos hc]; exact he))
      · exact List.mem_append.mpr (Or.inr (ih h1 hc he))

theorem fuzzyChildren_mem_ins {q : List Char} {maxDist : Nat} {c : Char}
    {child : TrieNode} {e : List Char × Int} :
    ∀ {l : List (Char × TrieNode)} {k d : Nat}, (c, child) ∈ l →
    ¬ q[k]? = some c → e ∈ fuzzyTraverse q maxDist child k (d + 1) →
    e ∈ fuzzyChildren q maxDist l k d := by
  intro l
  induction l with
  | nil => intro k d h; simp at h
  | cons p rest ih =>
      obtain ⟨c₀, ch₀⟩ := p
      intro k d hmem hc he
      rw [fuzzyChildren]
      rcases List.mem_cons.mp hmem with h1 | h1
      · obtain ⟨hc1, hc2⟩ := Prod.mk.injEq .. ▸ h1
        subst hc1; subst hc2
        refine List.mem_append.mpr (Or.inl ?_)
        rw [if_neg hc]
        exact List.mem_append.mpr (Or.inl he)
      · exact List.mem_append.mpr (Or.inr (ih h1 hc he))

theorem fuzzyChildren_mem_subst {q : List Char} {maxDist : Nat} {c : Char}
    {child : TrieNode} {e : List Char × Int} :
    ∀ {l : List (Char × TrieNode)} {k d : Nat}, (c, child) ∈ l →
    ¬ q[k]? = some c → k < q.length →
    e ∈ fuzzyTraverse q maxDist child (k + 1) (d + 1) →
    e ∈ fuzzyChildren q maxDist l k d := by
  intro l
  induction l with
  | nil => intro k d h; simp at h
  | cons p rest ih =>
      obtain ⟨c₀, ch₀⟩ := p
      intro k d hmem hc hk he
      rw [fuzzyChildren]
      rcases List.mem_cons.mp hmem with h1 | h1
      · obtain ⟨hc1, hc2⟩ := Prod.mk.injEq .. ▸ h1
        subst hc1; subst hc2
        refine List.mem_append.mpr (Or.inl ?_)
        rw [if_neg hc]
        refine List.mem_append.mpr (Or.inr ?_)
        rw [if_pos hk]
        exact he
      · exact List.mem_append.mpr (Or.inr (ih h1 hc hk he))

theorem collect_child_sub {n : TrieNode} {c : Char} {child : TrieNode}
    (hmem : (c, child) ∈ n.children) {x : List Char × Int}
    (hx : x ∈ collectNode child) : x ∈ collectNode n := by
  cases n with
  | mk ch iw w sc =>
      rw [collectNode]
      refine List.mem_append.mpr (Or.inr ?_)
      exact mem_collectChildren.mpr
        ⟨(c, child), by simpa [TrieNode.children] using hmem, hx⟩

end TrinoCli

namespace TrinoCli

theorem slice_cons {q : List Char} {k k' : Nat} (h1 : k < k')
    (h2 : k < q.length) :
    (q.take k').drop k = q.get ⟨k, h2⟩ :: (q.take k').drop (k + 1) := by
  have hlen : k < (q.take k').length := by
    simp [List.length_take]
    omega
  rw [List.drop_eq_getElem_cons hlen]
  congr 1
  simp [List.getElem_take]

theorem slice_self (q : List Char) (k : Nat) : (q.take k).drop k = [] :=
  List.drop_eq_nil_of_le (by simp [List.length_take])

theorem mem_map_fst_mapUpsert (e : List Char × Int) (w : List Char) :
    ∀ m : List (List Char × Int),
    (w ∈ (mapUpsert m e).map Prod.fst ↔
      w ∈ m.map Prod.fst ∨ w = e.1) := by
  intro m
  induction m with
  | nil => simp [mapUpsert]
  | cons p rest ih =>
      obtain ⟨u, s⟩ := p
      rw [mapUpsert]
      by_cases hu : u = e.1
      · subst hu
        simp
        try tauto
      · rw [if_neg hu]
        simp [ih]
        try tauto

theorem mem_map_fst_buildMap (es : List (List Char × Int)) (w : List Char) :
    (w ∈ (buildMap es).map Prod.fst ↔ w ∈ es.map Prod.fst) := by
  have hgen : ∀ (l : List (List Char × Int)) (acc : List (List Char × Int)),
      (w ∈ (l.foldl mapUpsert acc).map Prod.fst ↔
        w ∈ acc.map Prod.fst ∨ w ∈ l.map Prod.fst) := by
    intro l
    induction l with
    | nil => intro acc; simp
    | cons e rest ih =>
        intro acc
        rw [List.foldl_cons, ih, mem_map_fst_mapUpsert]
        simp
        tauto
  rw [buildMap, hgen]
  simp

end TrinoCli

namespace TrinoCli

/-- Soundness of the fuzzy traversal: every recorded entry is a word of the
subtree, and its spelling extends the node's path by a suffix whose edit
distance to some slice `q[k:k']` of the query fits in the remaining
distance budget. -/
theorem fuzzy_sound (q : List Char) (maxDist : Nat) :
    ∀ (fuel : Nat) (n : TrieNode) (path : List Char) (k d : Nat),
      maxDist + 1 - d = fuel → WF n path → k ≤ q.length →
      ∀ e ∈ fuzzyTraverse q maxDist n k d,
        e.1 ∈ (collectNode n).map Prod.fst ∧
        ∃ u k', e.1 = path ++ u ∧ k ≤ k' ∧ k' ≤ q.length ∧
          d + lev u ((q.take k').drop k) ≤ maxDist := by
  intro fuel
  induction fuel with
  | zero =>
      intro n path k d hfuel hwf hk e he
      rw [fuzzyTraverse_gt (by omega)] at he
      simp at he
  | succ fuel ihf =>
      intro n
      induction n using TrieNode.recAux with
      | h ch iw w0 sc ihn =>
          intro path k d hfuel hwf hk e he
          have hd : d ≤ maxDist := by omega
          cases hwf with
          | mk ch iw w0 sc path hw hnd hch =>
              rw [fuzzyTraverse_le hd] at he
              simp only [TrieNode.isWord, TrieNode.word, TrieNode.score,
                TrieNode.children, List.append_assoc, List.mem_append] at he
              rcases he with he | he | he
              · -- the node records itself
                cases iw with
                | false => simp at he
                | true =>
                    simp only [if_pos, List.mem_singleton] at he
                    subst he
                    constructor
                    · rw [collectNode]
                      simp
                    · refine ⟨[], k, by simp [hw rfl], le_rfl, hk, ?_⟩
                      rw [slice_self, lev_nil_left]
                      simpa using hd
              · -- a child branch
                obtain ⟨c, child, hmem, hcase⟩ := mem_fuzzyChildren he
                have hchild_wf : WF child (path ++ [c]) := hch _ hmem
                have hcollect_lift :
                    ∀ x : List Char, x ∈ (collectNode child).map Prod.fst →
                      x ∈ (collectNode (TrieNode.mk ch iw w0 sc)).map
                        Prod.fst := by
                  intro x hx
                  obtain ⟨ent, hent, hf⟩ := List.mem_map.mp hx
                  exact List.mem_map.mpr
                    ⟨ent, collect_child_sub (by simpa [TrieNode.children]
                      using hmem) hent, hf⟩
                rcases hcase with ⟨hc, he'⟩ | ⟨hc, he'⟩ | ⟨hc, hklen, he'⟩
                · -- match
                  obtain ⟨hklt, hgetc⟩ := List.getElem?_eq_some.mp hc
                  obtain ⟨hcol, u', k', hshape, hk1, hk2, hlev⟩ :=
                    ihn (c, child) hmem (path ++ [c]) (k + 1) d hfuel
                      hchild_wf (by omega) e he'
                  refine ⟨hcollect_lift _ hcol, c :: u', k', ?_, by omega,
                    hk2, ?_⟩
                  · rw [hshape]; simp
                  · rw [slice_cons (by omega) hklt]
                    have hq : q.get ⟨k, hklt⟩ = c := by
                      simpa using hgetc
                    rw [hq, lev_cons_cons, if_pos rfl]
                    exact hlev
                · -- insert (skip the trie character)
                  by_cases hd1 : d + 1 ≤ maxDist
                  · obtain ⟨hcol, u', k', hshape, hk1, hk2, hlev⟩ :=
                      ihf child (path ++ [c]) k (d + 1) (by omega)
                        hchild_wf hk e he'
                    refine ⟨hcollect_lift _ hcol, c :: u', k', ?_, hk1,
                      hk2, ?_⟩
                    · rw [hshape]; simp
                    · have := lev_cons_left_le c u' ((q.take k').drop k)
                      omega
                  · rw [fuzzyTraverse_gt (by omega)] at he'
                    simp at he'
                · -- substitute
                  by_cases hd1 : d + 1 ≤ maxDist
                  · obtain ⟨hcol, u', k', hshape, hk1, hk2, hlev⟩ :=
                      ihf child (path ++ [c]) (k + 1) (d + 1) (by omega)
                        hchild_wf (by omega) e he'
                    refine ⟨hcollect_lift _ hcol, c :: u', k', ?_, by omega,
                      hk2, ?_⟩
                    · rw [hshape]; simp
                    · rw [slice_cons (by omega) hklen]
                      have hne : ¬ c = q.get ⟨k, hklen⟩ := by
                        intro hh
                        apply hc
                        rw [hh]
                        simp [List.getElem?_eq_getElem hklen,
                          List.get_eq_getElem]
                      rw [lev_cons_cons, if_neg hne]
                      have hmin : min (lev u' (q.get ⟨k, hklen⟩ ::
                            (q.take k').drop (k + 1)))
                          (min (lev (c :: u') ((q.take k').drop (k + 1)))
                            (lev u' ((q.take k').drop (k + 1))))
                          ≤ lev u' ((q.take k').drop (k + 1)) :=
                        le_trans (min_le_right _ _) (min_le_right _ _)
                      omega
                  · rw [fuzzyTraverse_gt (by omega)] at he'
                    simp at he'
              · -- delete (skip a query character)
                by_cases hklen : k < q.length
                · rw [if_pos hklen] at he
                  by_cases hd1 : d + 1 ≤ maxDist
                  · obtain ⟨hcol, u, k', hshape, hk1, hk2, hlev⟩ :=
                      ihf (TrieNode.mk ch iw w0 sc) path (k + 1) (d + 1)
                        (by omega) (WF.mk ch iw w0 sc path hw hnd hch)
                        (by omega) e he
                    refine ⟨hcol, u, k', hshape, by omega, hk2, ?_⟩
                    rw [slice_cons (by omega) hklen]
                    have := lev_cons_right_le (q.get ⟨k, hklen⟩) u
                      ((q.take k').drop (k + 1))
                    omega
                  · rw [fuzzyTraverse_gt (by omega)] at he
                    simp at he
                · rw [if_neg hklen] at he
                  simp at he

end TrinoCli

namespace TrinoCli

/-- Completeness of the fuzzy traversal: a terminal node reachable from
`n` along raw path `u` is recorded whenever the remaining distance budget
covers the edit distance between `u` and the remaining query. -/
theorem fuzzy_complete (q : List Char) (maxDist : Nat) :
    ∀ (M : Nat) (u : List Char) (j : Nat) (n m : TrieNode) (d : Nat),
      u.length + (q.length - j) ≤ M →
      j ≤ q.length →
      findNodeFrom n u = some m → m.isWord = true →
      d + lev u (q.drop j) ≤ maxDist →
      ∃ s, (m.word, s) ∈ fuzzyTraverse q maxDist n j d := by
  intro M
  induction M with
  | zero =>
      intro u j n m d hM hj hf hw hlev
      have hu : u = [] := by
        cases u with
        | nil => rfl
        | cons a b => simp at hM
      subst hu
      cases hf
      exact ⟨_, fuzzy_self_mem (by omega) hw⟩
  | succ M ihM =>
      intro u j n m d hM hj hf hw hlev
      cases u with
      | nil =>
          cases hf
          exact ⟨_, fuzzy_self_mem (by omega) hw⟩
      | cons c u' =>
          have hf0 := hf
          simp only [findNodeFrom] at hf
          rcases hgc : getChild n.children c with _ | child
          · rw [hgc] at hf; simp at hf
          · rw [hgc] at hf
            simp only [Option.some_bind] at hf
            have hmem : (c, child) ∈ n.children := getChild_mem hgc
            by_cases hjlen : j < q.length
            · have hdrop : q.drop j = q.get ⟨j, hjlen⟩ :: q.drop (j + 1) := by
                rw [List.drop_eq_getElem_cons hjlen]
                simp [List.get_eq_getElem]
              have hsome : q[j]? = some (q.get ⟨j, hjlen⟩) := by
                simp [List.getElem?_eq_getElem hjlen, List.get_eq_getElem]
              by_cases hcq : q.get ⟨j, hjlen⟩ = c
              · have hlev' : d + lev u' (q.drop (j + 1)) ≤ maxDist := by
                  rw [hdrop, lev_cons_cons, if_pos hcq.symm] at hlev
                  exact hlev
                obtain ⟨s, hs⟩ := ihM u' (j + 1) child m d
                  (by simp at hM ⊢; omega) (by omega) hf hw hlev'
                have hd : d ≤ maxDist := by omega
                refine ⟨s, fuzzy_children_sub hd ?_⟩
                exact fuzzyChildren_mem_match hmem
                  (by rw [hsome, hcq]) hs
              · have hcne : ¬ q[j]? = some c := by
                  rw [hsome]
                  simp only [Option.some.injEq]
                  exact hcq
                rw [hdrop, lev_cons_cons,
                  if_neg (fun hh => hcq hh.symm)] at hlev
                have hd : d ≤ maxDist := by omega
                have hmincase :
                    min (lev u' (q.get ⟨j, hjlen⟩ :: q.drop (j + 1)))
                        (min (lev (c :: u') (q.drop (j + 1)))
                          (lev u' (q.drop (j + 1))))
                      = lev u' (q.get ⟨j, hjlen⟩ :: q.drop (j + 1))
                    ∨ min (lev u' (q.get ⟨j, hjlen⟩ :: q.drop (j + 1)))
                        (min (lev (c :: u') (q.drop (j + 1)))
                          (lev u' (q.drop (j + 1))))
                      = lev (c :: u') (q.drop (j + 1))
                    ∨ min (lev u' (q.get ⟨j, hjlen⟩ :: q.drop (j + 1)))
                        (min (lev (c :: u') (q.drop (j + 1)))
                          (lev u' (q.drop (j + 1))))
                      = lev u' (q.drop (j + 1)) := by
                  omega
                rcases hmincase with hmc | hmc | hmc
                · -- insert
                  have hlev' : (d + 1) + lev u' (q.drop j) ≤ maxDist := by
                    rw [hdrop]
                    omega
                  obtain ⟨s, hs⟩ := ihM u' j child m (d + 1)
                    (by simp at hM ⊢; omega) (by omega) hf hw hlev'
                  exact ⟨s, fuzzy_children_sub hd
                    (fuzzyChildren_mem_ins hmem hcne hs)⟩
                · -- delete
                  have hlev' : (d + 1) + lev (c :: u') (q.drop (j + 1))
                      ≤ maxDist := by omega
                  obtain ⟨s, hs⟩ := ihM (c :: u') (j + 1) n m (d + 1)
                    (by simp at hM ⊢; omega) (by omega) hf0 hw hlev'
                  exact ⟨s, fuzzy_delete_sub hd hjlen hs⟩
                · -- substitute
                  have hlev' : (d + 1) + lev u' (q.drop (j + 1))
                      ≤ maxDist := by omega
                  obtain ⟨s, hs⟩ := ihM u' (j + 1) child m (d + 1)
                    (by simp at hM ⊢; omega) (by omega) hf hw hlev'
                  exact ⟨s, fuzzy_children_sub hd
                    (fuzzyChildren_mem_subst hmem hcne hjlen hs)⟩
            · have hdrop : q.drop j = [] :=
                List.drop_eq_nil_of_le (by omega)
              rw [hdrop, lev_nil_right] at hlev
              simp only [List.length_cons] at hlev
              have hcne : ¬ q[j]? = some c := by
                rw [List.getElem?_eq_none (by omega)]
                simp
              have hlev' : (d + 1) + lev u' (q.drop j) ≤ maxDist := by
                rw [hdrop, lev_nil_right]
                omega
              obtain ⟨s, hs⟩ := ihM u' j child m (d + 1)
                (by simp at hM ⊢; omega) hj hf hw hlev'
              have hd : d ≤ maxDist := by omega
              exact ⟨s, fuzzy_children_sub hd
                (fuzzyChildren_mem_ins hmem hcne hs)⟩

end TrinoCli

namespace TrinoCli

/-- C1 (amended): every word returned by GetFuzzyMatches(q, maxDistance,
limit) is within maxDistance edit operations of some prefix of the
lowercased query (but not necessarily of the whole query), and every
inserted word whose lowercased form is within maxDistance of the lowercased
query is returned when limit is large enough. -/
theorem c1_fuzzy_matching (ops : List TrieOp) (pfx : List Char)
    (maxDist limit : Nat) :
    (∀ w ∈ Trie.getFuzzyMatches (buildTrie ops) pfx maxDist limit,
        ∃ k, k ≤ (toLowerList pfx).length ∧
          lev w ((toLowerList pfx).take k) ≤ maxDist)
    ∧ (∀ w, insertedIn ops (toLowerList w) →
        lev (toLowerList w) (toLowerList pfx) ≤ maxDist →
        ∃ N, ∀ lim, N ≤ lim →
          toLowerList w ∈ Trie.getFuzzyMatches (buildTrie ops) pfx
            maxDist lim) := by
  constructor
  · intro w hw
    simp only [Trie.getFuzzyMatches] at hw
    obtain ⟨e, he, hf⟩ := List.mem_map.mp hw
    have he2 : e ∈ buildMap (fuzzyTraverse (toLowerList pfx) maxDist
        (buildTrie ops) 0 0) :=
      (List.Perm.mem_iff (sortDesc_perm _)).mp (List.mem_of_mem_take he)
    have he3 : e.1 ∈ (fuzzyTraverse (toLowerList pfx) maxDist
        (buildTrie ops) 0 0).map Prod.fst :=
      (mem_map_fst_buildMap _ _).mp (List.mem_map_of_mem Prod.fst he2)
    obtain ⟨e', he', hf'⟩ := List.mem_map.mp he3
    obtain ⟨_, u, k', hshape, _, hk2, hlev⟩ :=
      fuzzy_sound (toLowerList pfx) maxDist (maxDist + 1) (buildTrie ops)
        [] 0 0 (by omega) (WF.buildTrie ops) (by omega) e' he'
    refine ⟨k', hk2, ?_⟩
    have hwu : w = u := by
      rw [← hf, ← hf', hshape]
      simp
    rw [hwu]
    simpa using hlev
  · intro w hins hlev
    obtain ⟨σ, hσ⟩ := insertedIn_lookup hins
    have hterm : termAt (buildTrie ops) (toLowerList w)
        = some (toLowerList w, σ) := by
      rw [(good_buildTrie ops).2 (toLowerList w), hσ]
      rfl
    rw [termAt] at hterm
    rcases hfr : findNodeFrom (buildTrie ops) (toLowerList w) with _ | m
    · rw [hfr] at hterm; simp at hterm
    · rw [hfr] at hterm
      have hterm2 : (if m.isWord = true then some (m.word, m.score)
          else none) = some (toLowerList w, σ) := hterm
      rcases hiw : m.isWord with _ | _
      · rw [hiw] at hterm2; simp at hterm2
      · rw [hiw] at hterm2
        simp only [if_pos, Option.some.injEq, Prod.mk.injEq] at hterm2
        obtain ⟨s, hs⟩ := fuzzy_complete (toLowerList pfx) maxDist
          ((toLowerList w).length + (toLowerList pfx).length)
          (toLowerList w) 0 (buildTrie ops) m 0 (by omega) (by omega)
          hfr hiw (by simpa using hlev)
        refine ⟨(sortDesc (buildMap (fuzzyTraverse (toLowerList pfx)
          maxDist (buildTrie ops) 0 0))).length, ?_⟩
        intro lim hlim
        simp only [Trie.getFuzzyMatches]
        rw [List.take_of_length_le hlim]
        have hw1 : toLowerList w ∈ (fuzzyTraverse (toLowerList pfx)
            maxDist (buildTrie ops) 0 0).map Prod.fst := by
          rw [← hterm2.1]
          exact List.mem_map_of_mem Prod.fst hs
        have hw2 := (mem_map_fst_buildMap _ _).mpr hw1
        obtain ⟨ent, hent, hentf⟩ := List.mem_map.mp hw2
        refine List.mem_map.mpr ⟨ent, ?_, hentf⟩
        exact (List.Perm.mem_iff (sortDesc_perm _)).mpr hent

end TrinoCli

namespace TrinoCli

/-- Counterexample to C1 as literally stated: with only the word "a"
inserted, GetFuzzyMatches("abc", 0, 10) returns "a", whose edit distance
from the query "abc" is 2 > 0: the traversal records a word as soon as its
own path fits the budget, without requiring the rest of the query to be
consumed. -/
theorem c1_counterexample :
    "a".toList ∈ Trie.getFuzzyMatches (buildTrie [TrieOp.ins "a".toList 1])
      "abc".toList 0 10
    ∧ 0 < lev "a".toList "abc".toList := by
  constructor
  · have ht : buildTrie [TrieOp.ins "a".toList 1]
        = TrieNode.mk [('a', TrieNode.mk [] true ['a'] 1)] false [] 0 := by
      rfl
    have hq : toLowerList "abc".toList = ['a', 'b', 'c'] := by decide
    simp only [Trie.getFuzzyMatches, ht, hq]
    simp (disch := decide) [fuzzyTraverse_le, fuzzyTraverse_gt,
      fuzzyChildren, TrieNode.children, TrieNode.isWord, TrieNode.word,
      TrieNode.score]
    decide
  · have h1 : lev "a".toList "abc".toList = 2 := by
      show lev ['a'] ['a', 'b', 'c'] = 2
      rw [lev_cons_cons, if_pos rfl, lev_nil_left]
      rfl
    omega

/-- Witness for the amended C1: "ab" inserted, query "abc", distance budget
1; "ab" is at distance 1 and is returned for every sufficient limit. -/
theorem c1_fuzzy_matching_witness :
    insertedIn [TrieOp.ins "ab".toList 3] (toLowerList "ab".toList)
    ∧ lev (toLowerList "ab".toList) (toLowerList "abc".toList) ≤ 1
    ∧ ∃ N, ∀ lim, N ≤ lim →
        toLowerList "ab".toList ∈
          Trie.getFuzzyMatches (buildTrie [TrieOp.ins "ab".toList 3])
            "abc".toList 1 lim := by
  have hlev : lev (toLowerList "ab".toList) (toLowerList "abc".toList)
      ≤ 1 := by
    rw [show toLowerList "ab".toList = ['a', 'b'] from by decide,
      show toLowerList "abc".toList = ['a', 'b', 'c'] from by decide]
    rw [lev_cons_cons, if_pos rfl, lev_cons_cons, if_pos rfl, lev_nil_left]
    decide
  have hins : insertedIn [TrieOp.ins "ab".toList 3]
      (toLowerList "ab".toList) :=
    ⟨"ab".toList, 3, by simp, by decide⟩
  exact ⟨hins, hlev,
    (c1_fuzzy_matching [TrieOp.ins "ab".toList 3] "abc".toList 1 0).2
      "ab".toList hins hlev⟩

/-! ### C10: the lowercase invariant -/

theorem collect_sub_of_find :
    ∀ (cs : List Char) {n m : TrieNode},
    findNodeFrom n cs = some m →
    ∀ x ∈ collectNode m, x ∈ collectNode n := by
  intro cs
  induction cs with
  | nil => intro n m h x hx; cases h; exact hx
  | cons c rest ih =>
      intro n m h x hx
      simp only [findNodeFrom] at h
      rcases hgc : getChild n.children c with _ | child
      · rw [hgc] at h; simp at h
      · rw [hgc] at h
        simp only [Option.some_bind] at h
        exact collect_child_sub (getChild_mem hgc) (ih h x hx)

/-- C10: every word stored in the trie is lowercase, every lookup
lowercases its query, every string returned by GetSuggestions or
GetFuzzyMatches is lowercase, and a keyword inserted in uppercase (e.g.
"SELECT") is returned as "select". -/
theorem c10_lowercase_invariant (ops : List TrieOp) (p : List Char)
    (limit maxDist : Nat) :
    (∀ e ∈ collectNode (buildTrie ops), toLowerList e.1 = e.1)
    ∧ (∀ w ∈ Trie.getSuggestions (buildTrie ops) p limit,
        toLowerList w = w)
    ∧ (∀ w ∈ Trie.getFuzzyMatches (buildTrie ops) p maxDist limit,
        toLowerList w = w)
    ∧ (∀ (t : TrieNode) (w : List Char) (a : Int),
        Trie.search t w = Trie.search t (toLowerList w)
        ∧ Trie.boostWord t w a = Trie.boostWord t (toLowerList w) a
        ∧ Trie.getSuggestions t w limit
            = Trie.getSuggestions t (toLowerList w) limit
        ∧ Trie.getFuzzyMatches t w maxDist limit
            = Trie.getFuzzyMatches t (toLowerList w) maxDist limit)
    ∧ Trie.getSuggestions (buildTrie [TrieOp.ins "SELECT".toList 1])
        "SEL".toList 10 = ["select".toList] := by
  refine ⟨collect_buildTrie_lower ops, ?_, ?_, ?_, by decide⟩
  · intro w hw
    rcases hfind : findNodeFrom (buildTrie ops) (toLowerList p) with _ | m
    · rw [Trie.getSuggestions, Trie.findNode, hfind] at hw
      simp at hw
    · rw [Trie.getSuggestions, Trie.findNode, hfind] at hw
      obtain ⟨e, he, hfst⟩ := List.mem_map.mp hw
      have he2 : e ∈ collectNode m :=
        (List.Perm.mem_iff (sortDesc_perm _)).mp (List.mem_of_mem_take he)
      have he3 : e ∈ collectNode (buildTrie ops) :=
        collect_sub_of_find _ hfind e he2
      rw [← hfst]
      exact collect_buildTrie_lower ops e he3
  · intro w hw
    simp only [Trie.getFuzzyMatches] at hw
    obtain ⟨e, he, hf⟩ := List.mem_map.mp hw
    have he2 : e ∈ buildMap (fuzzyTraverse (toLowerList p) maxDist
        (buildTrie ops) 0 0) :=
      (List.Perm.mem_iff (sortDesc_perm _)).mp (List.mem_of_mem_take he)
    have he3 : e.1 ∈ (fuzzyTraverse (toLowerList p) maxDist
        (buildTrie ops) 0 0).map Prod.fst :=
      (mem_map_fst_buildMap _ _).mp (List.mem_map_of_mem Prod.fst he2)
    obtain ⟨e', he', hf'⟩ := List.mem_map.mp he3
    obtain ⟨hcol, _⟩ :=
      fuzzy_sound (toLowerList p) maxDist (maxDist + 1) (buildTrie ops)
        [] 0 0 (by omega) (WF.buildTrie ops) (by omega) e' he'
    obtain ⟨ent, hent, hentf⟩ := List.mem_map.mp hcol
    rw [← hf, ← hf', ← hentf]
    exact collect_buildTrie_lower ops ent hent
  · intro t w a
    refine ⟨?_, ?_, ?_, ?_⟩
    · simp [Trie.search, Trie.findNode, toLowerList_idem]
    · simp [Trie.boostWord, toLowerList_idem]
    · simp [Trie.getSuggestions, Trie.findNode, toLowerList_idem]
    · simp [Trie.getFuzzyMatches, toLowerList_idem]

end TrinoCli

namespace TrinoCli

/-- Witness for C10: with "SELECT" inserted, the returned word "select" is
its own lowercase form. -/
theorem c10_lowercase_invariant_witness :
    "select".toList ∈ Trie.getSuggestions
      (buildTrie [TrieOp.ins "SELECT".toList 1]) "sel".toList 10
    ∧ toLowerList "select".toList = "select".toList :=
  ⟨by decide,
   (c10_lowercase_invariant [TrieOp.ins "SELECT".toList 1] "sel".toList
      10 0).2.1 "select".toList (by decide)⟩

end TrinoCli

namespace TrinoCli

/-! ### SchemaCache (metadata cache source file)

The SQLite tables are modelled as row lists with their declared primary
keys: `schemas(name PK)`, `tables(name, schema_name PK)`,
`columns(name, data_type, table_name, schema_name; PK name/table/schema)`.
`INSERT OR REPLACE` deletes any row with the same primary key and appends
the new row.  Queries are read-only row filters; driver-level failures are
outside the model, so their error component is always `none`. -/

structure ColRow where
  name : List Char
  dataType : List Char
  tableName : List Char
  schemaName : List Char
  deriving DecidableEq

structure CacheDB where
  schemas : List (List Char)
  tables : List (List Char × List Char)
  columns : List ColRow
  deriving DecidableEq

structure ColumnMetadata where
  name : List Char
  dataType : List Char
  table : List Char
  schema : List Char
  deriving DecidableEq

structure TableMetadata where
  name : List Char
  schema : List Char
  columns : List ColumnMetadata
  deriving DecidableEq

structure SchemaMetadata where
  name : List Char
  tables : List TableMetadata
  deriving DecidableEq

structure SchemaCache where
  db : CacheDB
  trie : TrieNode

def upsertSchemaRow (l : List (List Char)) (name : List Char) :
    List (List Char) :=
  (l.filter fun x => decide (x ≠ name)) ++ [name]

def upsertTableRow (l : List (List Char × List Char))
    (r : List Char × List Char) : List (List Char × List Char) :=
  (l.filter fun x => decide (x ≠ r)) ++ [r]

def upsertColRow (l : List ColRow) (r : ColRow) : List ColRow :=
  (l.filter fun x => decide (¬ (x.name = r.name ∧ x.tableName = r.tableName
    ∧ x.schemaName = r.schemaName))) ++ [r]

/-- The per-column loop of `StoreSchema`, threading the exec counter and an
injected failure point `failAt` (the index of the `tx.Exec` that errors).
On failure the transaction's database writes are discarded by the caller,
but the trie inserts made so far survive — hence the error carries the
trie. -/
def storeCols (sName tName : List Char) :
    List ColumnMetadata → CacheDB → TrieNode → Nat → Option Nat →
    Except TrieNode (CacheDB × TrieNode × Nat)
  | [], db, tr, cnt, _ => .ok (db, tr, cnt)
  | col :: rest, db, tr, cnt, failAt =>
      if failAt = some cnt then .error tr
      else
        let db' : CacheDB := ⟨db.schemas, db.tables,
          upsertColRow db.columns ⟨col.name, col.dataType, tName, sName⟩⟩
        let tr' := Trie.insert (Trie.insert tr col.name 80)
          (tName ++ '.' :: col.name) 85
        storeCols sName tName rest db' tr' (cnt + 1) failAt

/-- The per-table loop of `StoreSchema`. -/
def storeTables (sName : List Char) :
    List TableMetadata → CacheDB → TrieNode → Nat → Option Nat →
    Except TrieNode (CacheDB × TrieNode × Nat)
  | [], db, tr, cnt, _ => .ok (db, tr, cnt)
  | tbl :: rest, db, tr, cnt, failAt =>
      if failAt = some cnt then .error tr
      else
        let db' : CacheDB := ⟨db.schemas,
          upsertTableRow db.tables (tbl.name, sName), db.columns⟩
        let tr' := Trie.insert (Trie.insert tr tbl.name 90)
          (sName ++ '.' :: tbl.name) 95
        match storeCols sName tbl.name tbl.columns db' tr' (cnt + 1)
            failAt with
        | .error t => .error t
        | .ok (db2, tr2, cnt2) => storeTables sName rest db2 tr2 cnt2 failAt

/-- `StoreSchema(metadata)`: one transaction upserting the schema row, its
tables and their columns (exec index 0 is the schema upsert), with trie
re-seeding interleaved exactly as in the source.  `failAt = some i` makes
the i-th exec fail (i equal to the total count makes `tx.Commit` fail);
any failure rolls the database back to its prior state and returns an
error (`true`). -/
def storeSchema (sc : SchemaCache) (md : SchemaMetadata)
    (failAt : Option Nat) : SchemaCache × Bool :=
  if failAt = some 0 then ({ sc with db := sc.db }, true)
  else
    let db1 : CacheDB := ⟨upsertSchemaRow sc.db.schemas md.name,
      sc.db.tables, sc.db.columns⟩
    let tr1 := Trie.insert sc.trie md.name 100
    match storeTables md.name md.tables db1 tr1 1 failAt with
    | .error tr => ({ db := sc.db, trie := tr }, true)
    | .ok (db2, tr2, cnt2) =>
        if failAt = some cnt2 then ({ db := sc.db, trie := tr2 }, true)
        else ({ db := db2, trie := tr2 }, false)

/-- `GetTables(schema)`: `SELECT name FROM tables WHERE schema_name = ?`. -/
def getTables (db : CacheDB) (schemaName : List Char) :
    List (List Char) × Option Unit :=
  ((db.tables.filter fun r => decide (r.2 = schemaName)).map Prod.fst, none)

/-- `GetColumns(schema, table)`: filters the columns table and fills in the
Table/Schema fields from the arguments. -/
def getColumns (db : CacheDB) (schemaName tableName : List Char) :
    List ColumnMetadata × Option Unit :=
  ((db.columns.filter fun r => decide (r.schemaName = schemaName)
      && decide (r.tableName = tableName)).map
    (fun r => ⟨r.name, r.dataType, tableName, schemaName⟩), none)

/-- `GetSchemas()`: `SELECT name FROM schemas`. -/
def getSchemas (db : CacheDB) : List (List Char) × Option Unit :=
  (db.schemas, none)

/-- First-occurrence deduplication, modelling `SELECT DISTINCT`. -/
def distinctList (l : List (List Char)) : List (List Char) :=
  l.foldl (fun acc x => if x ∈ acc then acc else acc ++ [x]) []

/-- `GetAllColumns()`: `SELECT DISTINCT name FROM columns`. -/
def getAllColumns (db : CacheDB) : List (List Char) × Option Unit :=
  (distinctList (db.columns.map ColRow.name), none)

/-- `GetAllTables()`: `SELECT DISTINCT name FROM tables`. -/
def getAllTables (db : CacheDB) : List (List Char) × Option Unit :=
  (distinctList (db.tables.map Prod.fst), none)

/-- `GetAllSchemaQualifiedTables()`: schema_name.name for every row. -/
def getAllSchemaQualifiedTables (db : CacheDB) :
    List (List Char) × Option Unit :=
  (db.tables.map (fun r => r.2 ++ '.' :: r.1), none)

/-- C5: if a StoreSchema call fails partway through, GetTables and
GetColumns afterwards observe exactly the complete previous state of the
database (hence never a mixture of old and new rows). -/
theorem c5_store_schema_atomic (sc : SchemaCache) (md : SchemaMetadata)
    (failAt : Option Nat)
    (herr : (storeSchema sc md failAt).2 = true) :
    (storeSchema sc md failAt).1.db = sc.db
    ∧ (∀ s, getTables (storeSchema sc md failAt).1.db s
        = getTables sc.db s)
    ∧ (∀ s t, getColumns (storeSchema sc md failAt).1.db s t
        = getColumns sc.db s t) := by
  have hdb : (storeSchema sc md failAt).1.db = sc.db := by
    rw [storeSchema] at herr ⊢
    by_cases h0 : failAt = some 0
    · rw [if_pos h0]
    · rw [if_neg h0] at herr ⊢
      rcases hst : storeTables md.name md.tables
          { sc.db with schemas := upsertSchemaRow sc.db.schemas md.name }
          (Trie.insert sc.trie md.name 100) 1 failAt with tr | res
      · simp [hst]
      · obtain ⟨db2, tr2, cnt2⟩ := res
        simp only [hst] at herr ⊢
        by_cases hc : failAt = some cnt2
        · simp [hc]
        · simp [hc] at herr
  exact ⟨hdb, fun s => by rw [hdb], fun s t => by rw [hdb]⟩

/-- Witness for C5: a two-exec store where the table upsert (exec 1)
fails; the call errors and the database is unchanged. -/
theorem c5_store_schema_atomic_witness :
    (storeSchema ⟨⟨[], [], []⟩, emptyNode⟩
        ⟨"s".toList, [⟨"t".toList, "s".toList,
          [⟨"c".toList, "int".toList, "t".toList, "s".toList⟩]⟩]⟩
        (some 1)).2 = true
    ∧ (storeSchema ⟨⟨[], [], []⟩, emptyNode⟩
        ⟨"s".toList, [⟨"t".toList, "s".toList,
          [⟨"c".toList, "int".toList, "t".toList, "s".toList⟩]⟩]⟩
        (some 1)).1.db = (⟨[], [], []⟩ : CacheDB) :=
  ⟨by decide,
   (c5_store_schema_atomic ⟨⟨[], [], []⟩, emptyNode⟩
      ⟨"s".toList, [⟨"t".toList, "s".toList,
        [⟨"c".toList, "int".toList, "t".toList, "s".toList⟩]⟩]⟩
      (some 1) (by decide)).1⟩

/-- C8: lookups for keys not present in the cache return an empty
collection together with a nil error; an unknown key is never an error. -/
theorem c8_empty_lookups (db : CacheDB) (sName tName : List Char)
    (hs : ∀ r ∈ db.tables, r.2 ≠ sName)
    (hc : ∀ r ∈ db.columns,
      ¬ (r.schemaName = sName ∧ r.tableName = tName)) :
    getTables db sName = ([], none)
    ∧ getColumns db sName tName = ([], none)
    ∧ (∀ db0 : CacheDB, db0.schemas = [] → getSchemas db0 = ([], none)) := by
  refine ⟨?_, ?_, ?_⟩
  · rw [getTables]
    have : db.tables.filter (fun r => decide (r.2 = sName)) = [] := by
      rw [List.filter_eq_nil]
      intro r hr
      simp [hs r hr]
    rw [this]
    rfl
  · rw [getColumns]
    have : db.columns.filter (fun r => decide (r.schemaName = sName)
        && decide (r.tableName = tName)) = [] := by
      rw [List.filter_eq_nil]
      intro r hr
      have := hc r hr
      simp only [Bool.and_eq_true, decide_eq_true_eq]
      tauto
    rw [this]
    rfl
  · intro db0 h0
    rw [getSchemas, h0]

/-- Witness for C8 on a concrete cache holding only schema "s" with table
"t": the unknown schema "x" and unknown table "y" yield empty results. -/
theorem c8_empty_lookups_witness :
    getTables ⟨["s".toList], [("t".toList, "s".toList)],
        [⟨"c".toList, "int".toList, "t".toList, "s".toList⟩]⟩
      "x".toList = ([], none)
    ∧ getColumns ⟨["s".toList], [("t".toList, "s".toList)],
        [⟨"c".toList, "int".toList, "t".toList, "s".toList⟩]⟩
      "s".toList "y".toList = ([], none)
    ∧ (∀ db0 : CacheDB, db0.schemas = [] → getSchemas db0 = ([], none)) :=
  c8_empty_lookups
    ⟨["s".toList], [("t".toList, "s".toList)],
      [⟨"c".toList, "int".toList, "t".toList, "s".toList⟩]⟩
    "x".toList "y".toList (by decide) (by decide)

end TrinoCli

namespace TrinoCli

/-! ### autocomplete.go — word extraction and context analysis

Go strings are byte-indexed here (`sql[start]`, `len(sql)`); every string
the service handles is ASCII, so bytes coincide with the `List Char`
model.  `toUpperList` is `strings.ToUpper` on ASCII. -/

def toUpperList (s : List Char) : List Char := s.map Char.toUpper

/-- `isWordChar`: letters, digits and underscore. -/
def isWordChar (c : Char) : Bool :=
  (decide ('a' ≤ c) && decide (c ≤ 'z'))
    || (decide ('A' ≤ c) && decide (c ≤ 'Z'))
    || (decide ('0' ≤ c) && decide (c ≤ '9'))
    || decide (c = '_')

/-- The backward scan of `getWordAtCursor`: from `cursorPos - 1` step left
while on a word character, then one step right — i.e. the start of the
word-character run ending before the cursor. -/
def scanLeft (sql : List Char) : Nat → Nat
  | 0 => 0
  | k + 1 => if isWordChar (sql.getD k ' ') then scanLeft sql k else k + 1

/-- The forward scan of `getWordAtCursor` over the remaining characters:
`scanRightAux (sql.drop k) k` is the first index `≥ k` holding a non-word
character (or `len(sql)`). -/
def scanRightAux : List Char → Nat → Nat
  | [], k => k
  | c :: rest, k => if isWordChar c then scanRightAux rest (k + 1) else k

/-- `getWordAtCursor(sql, cursorPos)`: out-of-range cursors give `("", 0)`;
otherwise the maximal word-character run around the cursor (scanning both
left and right of it) and its start index.  `sql[start:end]` is
`(sql.drop start).take (end - start)`. -/
def wordFromScans (sql : List Char) (start en : Nat) : List Char × Nat :=
  if en ≤ start then ([], start)
  else ((sql.drop start).take (en - start), start)

def getWordAtCursor (sql : List Char) (cursorPos : Int) : List Char × Nat :=
  if cursorPos ≤ 0 ∨ cursorPos > (sql.length : Int) then ([], 0)
  else wordFromScans sql (scanLeft sql cursorPos.toNat)
    (scanRightAux (sql.drop cursorPos.toNat) cursorPos.toNat)

/-- `strings.LastIndex(s, pat)` as an `Option` (Go returns `-1` for
`none`): the greatest index at which `pat` occurs in `s`. -/
def occursAt (s pat : List Char) (i : Nat) : Bool :=
  pat.isPrefixOf (s.drop i)

def lastIndexAux (s pat : List Char) : Nat → Option Nat
  | 0 => if occursAt s pat 0 then some 0 else none
  | k + 1 => if occursAt s pat (k + 1) then some (k + 1)
      else lastIndexAux s pat k

def lastIndexOf (s pat : List Char) : Option Nat :=
  lastIndexAux s pat s.length

/-- `strings.Contains(s, pat)`: some occurrence exists. -/
def containsSub (s pat : List Char) : Bool :=
  (lastIndexOf s pat).isSome

/-- ASCII model of `unicode.IsSpace` for the inputs at hand. -/
def isSpaceChar (c : Char) : Bool :=
  decide (c = ' ') || decide (c = '\t') || decide (c = '\n')
    || decide (c = '\r')

/-- `strings.TrimSpace`. -/
def trimSpace (s : List Char) : List Char :=
  ((s.dropWhile isSpaceChar).reverse.dropWhile isSpaceChar).reverse

/-- `strings.Fields`: split around runs of whitespace. -/
def fieldsAux : List Char → List Char → List (List Char)
  | [], cur => if cur = [] then [] else [cur.reverse]
  | c :: rest, cur =>
      if isSpaceChar c then
        if cur = [] then fieldsAux rest []
        else cur.reverse :: fieldsAux rest []
      else fieldsAux rest (c :: cur)

def fields (s : List Char) : List (List Char) := fieldsAux s []

inductive SQLCompletionType where
  | Keyword
  | SchemaName
  | TableName
  | ColumnName
  | Function
  deriving DecidableEq

structure SqlContext where
  completionType : SQLCompletionType
  schema : List Char
  table : List Char
  deriving DecidableEq

/-- `analyzeContext(sql, cursorPos)` — the four textual checks in source
order: FROM-without-space, dot, SELECT, WHERE; default is Keyword.
`cursorPos` is the already-clamped in-range position `GetCompletions`
passes (the Go function would panic outside `[0, len(sql)]`). -/
def analyzeContext (sql : List Char) (cursorPos : Nat) : SqlContext :=
  let upto := sql.take cursorPos
  let whereCtx : SqlContext :=
    match lastIndexOf upto ("WHERE ".toList) with
    | some _ => ⟨.ColumnName, [], []⟩
    | none => ⟨.Keyword, [], []⟩
  let selectCtx : SqlContext :=
    match lastIndexOf upto ("SELECT ".toList) with
    | some selectMatch =>
        let afterSelect := upto.drop (selectMatch + 7)
        if containsSub afterSelect ("FROM".toList)
            || containsSub afterSelect (" WHERE ".toList) then whereCtx
        else ⟨.ColumnName, [], []⟩
    | none => whereCtx
  let dotCtx : SqlContext :=
    match lastIndexOf upto (".".toList) with
    | some dotMatch =>
        if dotMatch + 1 < cursorPos then
          let beforeDot := sql.take dotMatch
          match lastIndexOf beforeDot (" ".toList) with
          | some lastSpace =>
              ⟨.TableName, trimSpace (beforeDot.drop lastSpace), []⟩
          | none => selectCtx
        else selectCtx
    | none => selectCtx
  match lastIndexOf upto ("FROM ".toList) with
  | some fromMatch =>
      if containsSub (upto.drop (fromMatch + 5)) [' '] then dotCtx
      else ⟨.SchemaName, [], []⟩
  | none => dotCtx

/-- The function list hard-coded in the SELECT branch of
`GetContextualSuggestions`. -/
def selectFunctions : List (List Char) :=
  ["COUNT".toList, "SUM".toList, "AVG".toList, "MIN".toList, "MAX".toList,
   "DISTINCT".toList, "CAST".toList, "COALESCE".toList, "NULLIF".toList,
   "EXTRACT".toList, "CURRENT_DATE".toList, "CURRENT_TIME".toList,
   "CURRENT_TIMESTAMP".toList]

/-- `GetContextualSuggestions(query, cursorPos, cache)`.  The repeated
"filter by prefix if there is one" block is factored as `filterPre`; the
cache accessors never fail in the model, so the `err != nil` early
returns are unreachable.  `cache.GetSuggestions` delegates to the cache's
trie.  `cursorPos` is nonnegative at every call site (GetCompletions
clamps first). -/
def getContextualSuggestions (query : List Char) (cursorPos : Nat)
    (sc : SchemaCache) : List (List Char) :=
  let queryBeforeCursor :=
    if cursorPos < query.length then query.take cursorPos else query
  let tokens := fields queryBeforeCursor
  match tokens.reverse with
  | [] => []
  | lastToken :: prevRev =>
    let lastTokenUpper := toUpperList lastToken
    let word := (getWordAtCursor query (cursorPos : Int)).1
    let filterPre : List (List Char) → List (List Char) := fun l =>
      if word = [] then l
      else l.filter (fun s => (toLowerList word).isPrefixOf (toLowerList s))
    if lastTokenUpper = "SELECT".toList then
      filterPre ((getAllColumns sc.db).1 ++ selectFunctions)
    else if lastTokenUpper = "FROM".toList then
      filterPre ((getAllTables sc.db).1
        ++ (getAllSchemaQualifiedTables sc.db).1 ++ (getSchemas sc.db).1)
    else if lastTokenUpper = "JOIN".toList then
      filterPre ((getAllTables sc.db).1
        ++ (getAllSchemaQualifiedTables sc.db).1)
    else if lastTokenUpper = "WHERE".toList ∨ lastTokenUpper = "AND".toList
        ∨ lastTokenUpper = "OR".toList ∨ lastTokenUpper = "ON".toList then
      filterPre (getAllColumns sc.db).1
    else if lastTokenUpper = "ORDER".toList
        ∨ lastTokenUpper = "GROUP".toList then
      ["BY".toList]
    else if lastTokenUpper = "BY".toList then
      match prevRev with
      | prev :: _ =>
          if toUpperList prev = "ORDER".toList
              ∨ toUpperList prev = "GROUP".toList then
            filterPre (getAllColumns sc.db).1
          else Trie.getSuggestions sc.trie word 50
      | [] => Trie.getSuggestions sc.trie word 50
    else Trie.getSuggestions sc.trie word 50

end TrinoCli

namespace TrinoCli

/-! ### autocomplete.go — suggestions, scoring and GetCompletions

Go `float64` scores are modelled by exact rationals; every claim proven
below is comparison-based, so only the ordering of scores matters. -/

/-- `fuzzyMatch(prefix, suggestion)`: greedy subsequence check. -/
def fuzzyMatch : List Char → List Char → Bool
  | [], _ => true
  | _ :: _, [] => false
  | a :: p, b :: s => if a = b then fuzzyMatch p s else fuzzyMatch (a :: p) s

/-- `calculateScore(prefix, suggestion)`. -/
def calculateScore (pre suggestion : List Char) : ℚ :=
  if pre.length = 0 then 1/2
  else if (toLowerList pre).isPrefixOf (toLowerList suggestion) then
    1 - (1 - (pre.length : ℚ) / (suggestion.length : ℚ)) * (1/10)
  else if containsSub (toLowerList suggestion) (toLowerList pre) then 7/10
  else if fuzzyMatch (toLowerList pre) (toLowerList suggestion) then 6/10
  else 1/10

structure Suggestion where
  text : List Char
  stype : SQLCompletionType
  score : ℚ
  schema : List Char
  table : List Char
  detailText : List Char
  deriving DecidableEq

/-- The `CommonSQLKeywords` package-level list. -/
def commonSQLKeywords : List (List Char) :=
  ["SELECT".toList, "FROM".toList, "WHERE".toList, "GROUP BY".toList,
   "ORDER BY".toList, "HAVING".toList, "LIMIT".toList,
   "JOIN".toList, "LEFT JOIN".toList, "RIGHT JOIN".toList,
   "INNER JOIN".toList, "FULL JOIN".toList, "CROSS JOIN".toList,
   "ON".toList, "AND".toList, "OR".toList, "NOT".toList, "IN".toList,
   "EXISTS".toList, "BETWEEN".toList, "LIKE".toList, "IS NULL".toList,
   "IS NOT NULL".toList,
   "COUNT".toList, "SUM".toList, "AVG".toList, "MIN".toList, "MAX".toList,
   "DISTINCT".toList, "AS".toList, "WITH".toList, "UNION".toList,
   "ALL".toList,
   "INSERT".toList, "INTO".toList, "VALUES".toList, "UPDATE".toList,
   "SET".toList, "DELETE".toList, "CREATE".toList, "TABLE".toList,
   "VIEW".toList,
   "DROP".toList, "ALTER".toList, "ADD".toList, "COLUMN".toList,
   "DESC".toList, "ASC".toList, "PARTITION BY".toList, "OVER".toList,
   "CAST".toList,
   "CASE".toList, "WHEN".toList, "THEN".toList, "ELSE".toList,
   "END".toList, "COALESCE".toList, "NULLIF".toList, "EXTRACT".toList,
   "CURRENT_DATE".toList,
   "CURRENT_TIME".toList, "CURRENT_TIMESTAMP".toList, "INTERVAL".toList]

structure AutocompleteService where
  cache : SchemaCache
  keywordTrie : TrieNode
  maxSuggestions : Nat

/-- `NewAutocompleteService`: keyword trie seeded with every common SQL
keyword at score 1, `maxSuggestions` defaulted to 20. -/
def newAutocompleteService (sc : SchemaCache) : AutocompleteService :=
  ⟨sc, commonSQLKeywords.foldl (fun t w => Trie.insert t w 1) emptyNode, 20⟩

/-- The hard-coded list of `getFunctionSuggestions`. -/
def sqlFunctions : List (List Char) :=
  ["COUNT".toList, "SUM".toList, "AVG".toList, "MIN".toList, "MAX".toList,
   "STDDEV".toList, "VARIANCE".toList,
   "LOWER".toList, "UPPER".toList, "CONCAT".toList, "SUBSTRING".toList,
   "TRIM".toList, "LENGTH".toList,
   "CAST".toList, "ROUND".toList, "FLOOR".toList, "CEILING".toList,
   "ABS".toList, "MOD".toList,
   "CURRENT_DATE".toList, "CURRENT_TIME".toList,
   "CURRENT_TIMESTAMP".toList, "EXTRACT".toList]

def getKeywordSuggestions (ac : AutocompleteService) (pre : List Char) :
    List Suggestion :=
  (Trie.getSuggestions ac.keywordTrie (toUpperList pre) 10).map
    (fun w => ⟨w, .Keyword, calculateScore pre w, [], [], []⟩)

def getSchemaSuggestions (ac : AutocompleteService) (pre : List Char) :
    List Suggestion :=
  ((getSchemas ac.cache.db).1.filter
      (fun s => (toLowerList pre).isPrefixOf (toLowerList s))).map
    (fun s => ⟨s, .SchemaName, calculateScore pre s, [], [], []⟩)

def getTableSuggestions (ac : AutocompleteService) (pre schema : List Char) :
    List Suggestion :=
  ((getTables ac.cache.db schema).1.filter
      (fun t => (toLowerList pre).isPrefixOf (toLowerList t))).map
    (fun t => ⟨t, .TableName, calculateScore pre t, schema, [],
      schema ++ '.' :: t⟩)

def getAllTableSuggestions (ac : AutocompleteService) (pre : List Char) :
    List Suggestion :=
  (getSchemas ac.cache.db).1.flatMap (fun s => getTableSuggestions ac pre s)

def getColumnSuggestions (ac : AutocompleteService)
    (pre schema table : List Char) : List Suggestion :=
  ((getColumns ac.cache.db schema table).1.filter
      (fun c => (toLowerList pre).isPrefixOf (toLowerList c.name))).map
    (fun c => ⟨c.name, .ColumnName, calculateScore pre c.name, schema, table,
      schema ++ '.' :: table ++ '.' :: c.name ++ ' ' :: '(' :: c.dataType
        ++ [')']⟩)

def getAllColumnSuggestionsForSchema (ac : AutocompleteService)
    (pre schema : List Char) : List Suggestion :=
  (getTables ac.cache.db schema).1.flatMap
    (fun t => getColumnSuggestions ac pre schema t)

def getAllColumnSuggestions (ac : AutocompleteService) (pre : List Char) :
    List Suggestion :=
  (getSchemas ac.cache.db).1.flatMap
    (fun s => getAllColumnSuggestionsForSchema ac pre s)

def getFunctionSuggestions (pre : List Char) : List Suggestion :=
  (sqlFunctions.filter
      (fun f => (toUpperList pre).isPrefixOf (toUpperList f))).map
    (fun f => ⟨f, .Function, calculateScore pre f, [], [], []⟩)

/-- `getSuggestionsByContext`: keyword suggestions always, then
context-specific ones; the Keyword case adds nothing. -/
def getSuggestionsByContext (ac : AutocompleteService) (pre : List Char)
    (ctx : SqlContext) : List Suggestion :=
  getKeywordSuggestions ac pre ++
    match ctx.completionType with
    | .SchemaName => getSchemaSuggestions ac pre
    | .TableName =>
        if ctx.schema ≠ [] then getTableSuggestions ac pre ctx.schema
        else getAllTableSuggestions ac pre
    | .ColumnName =>
        if ctx.table ≠ [] then
          getColumnSuggestions ac pre ctx.schema ctx.table
        else if ctx.schema ≠ [] then
          getAllColumnSuggestionsForSchema ac pre ctx.schema
        else getAllColumnSuggestions ac pre
    | .Function => getFunctionSuggestions pre
    | .Keyword => []

/-- One left-to-right pass of the bubble sort in `sortSuggestionsByScore`:
adjacent pairs with the left score smaller are swapped, carrying a
minimum to the end. -/
def bubblePass : List Suggestion → List Suggestion
  | [] => []
  | [a] => [a]
  | a :: b :: l =>
      if a.score < b.score then b :: bubblePass (a :: l)
      else a :: bubblePass (b :: l)

/-- `n` full bubble passes. -/
def passes : Nat → List Suggestion → List Suggestion
  | 0, l => l
  | k + 1, l => passes k (bubblePass l)

/-- `sortSuggestionsByScore`: the source runs `n-1` passes whose inner
loop shrinks by one each time; a full-length pass acts identically on the
already-settled tail (it contains the minima in final position, so those
comparisons never swap), so `n-1` full passes compute the same list. -/
def sortSuggestionsByScore (l : List Suggestion) : List Suggestion :=
  passes (l.length - 1) l

/-- The cursor clamping at the top of `GetCompletions`. -/
def clampPos (cursorPos : Int) (n : Nat) : Nat :=
  if cursorPos < 0 then 0
  else if cursorPos > (n : Int) then n
  else cursorPos.toNat

/-- The body of `GetCompletions` after clamping.  The `switch` mapping
`ctx.completionType` onto the suggestion type is the identity. -/
def getCompletionsAt (ac : AutocompleteService) (sql : List Char)
    (cp : Nat) : List Suggestion × Option Unit :=
  let word := (getWordAtCursor sql (cp : Int)).1
  let ctx := analyzeContext sql cp
  let contextual := getContextualSuggestions sql cp ac.cache
  let base :=
    if contextual = [] then getSuggestionsByContext ac word ctx
    else contextual.map (fun text =>
      ⟨text, ctx.completionType, calculateScore word text, [], [], []⟩)
  let sorted := sortSuggestionsByScore base
  (if ac.maxSuggestions < sorted.length then sorted.take ac.maxSuggestions
   else sorted, none)

/-- `GetCompletions(sql, cursorPos)`: clamp, then the body; the returned
error is the literal `nil`. -/
def getCompletions (ac : AutocompleteService) (sql : List Char)
    (cursorPos : Int) : List Suggestion × Option Unit :=
  getCompletionsAt ac sql (clampPos cursorPos sql.length)

end TrinoCli

namespace TrinoCli

lemma bubblePass_nil : bubblePass [] = [] := by
  rw [bubblePass]

lemma bubblePass_one (a : Suggestion) : bubblePass [a] = [a] := by
  rw [bubblePass]

lemma bubblePass_cons2 (a b : Suggestion) (l : List Suggestion) :
    bubblePass (a :: b :: l) =
      if a.score < b.score then b :: bubblePass (a :: l)
      else a :: bubblePass (b :: l) := by
  rw [bubblePass]

lemma bubblePass_perm (l : List Suggestion) :
    List.Perm (bubblePass l) l := by
  have key : ∀ n (l : List Suggestion), l.length ≤ n →
      List.Perm (bubblePass l) l := by
    intro n
    induction n with
    | zero =>
        intro l hl
        have : l = [] := List.eq_nil_of_length_eq_zero (Nat.le_zero.mp hl)
        subst this
        simp [bubblePass_nil]
    | succ n ih =>
        intro l hl
        rcases l with _ | ⟨a, _ | ⟨b, rest⟩⟩
        · simp [bubblePass_nil]
        · simp [bubblePass_one]
        · rw [bubblePass_cons2]
          simp only [List.length_cons] at hl
          have hn : rest.length + 1 ≤ n := by omega
          by_cases h : a.score < b.score
          · rw [if_pos h]
            have h1 : (a :: rest).length ≤ n := by
              simp only [List.length_cons]
              omega
            exact ((ih (a :: rest) h1).cons b).trans
              (List.Perm.swap a b rest)
          · rw [if_neg h]
            have h1 : (b :: rest).length ≤ n := by
              simp only [List.length_cons]
              omega
            exact (ih (b :: rest) h1).cons a
  exact key l.length l le_rfl

lemma bubblePass_length (l : List Suggestion) :
    (bubblePass l).length = l.length :=
  (bubblePass_perm l).length_eq

lemma bubblePass_mem {x : Suggestion} {l : List Suggestion} :
    x ∈ bubblePass l ↔ x ∈ l :=
  (bubblePass_perm l).mem_iff

/-- After one pass the last element is a minimum of the list. -/
lemma bubblePass_last_min :
    ∀ n (l : List Suggestion), l.length ≤ n → l ≠ [] →
      ∃ l' m, bubblePass l = l' ++ [m] ∧ ∀ x ∈ l, m.score ≤ x.score := by
  intro n
  induction n with
  | zero =>
      intro l hl hne
      exact absurd (List.eq_nil_of_length_eq_zero (Nat.le_zero.mp hl)) hne
  | succ n ih =>
      intro l hl hne
      rcases l with _ | ⟨a, _ | ⟨b, rest⟩⟩
      · exact absurd rfl hne
      · refine ⟨[], a, by simp [bubblePass_one], ?_⟩
        intro x hx
        rw [List.mem_singleton] at hx
        subst hx
        exact le_refl _
      · simp only [List.length_cons] at hl
        have ha1 : (a :: rest).length ≤ n := by
          simp only [List.length_cons]
          omega
        have hb1 : (b :: rest).length ≤ n := by
          simp only [List.length_cons]
          omega
        by_cases h : a.score < b.score
        · obtain ⟨l', m, heq, hmin⟩ := ih (a :: rest) ha1 (by simp)
          refine ⟨b :: l', m, ?_, ?_⟩
          · rw [bubblePass_cons2, if_pos h, heq]
            rfl
          · intro x hx
            rcases List.mem_cons.mp hx with hxa | hx'
            · subst hxa
              exact hmin x (by simp)
            rcases List.mem_cons.mp hx' with hxb | hxr
            · subst hxb
              exact (hmin a (by simp)).trans (le_of_lt h)
            · exact hmin x (by simp [hxr])
        · obtain ⟨l', m, heq, hmin⟩ := ih (b :: rest) hb1 (by simp)
          refine ⟨a :: l', m, ?_, ?_⟩
          · rw [bubblePass_cons2, if_neg h, heq]
            rfl
          · intro x hx
            rcases List.mem_cons.mp hx with hxa | hx'
            · subst hxa
              exact (hmin b (by simp)).trans (le_of_not_lt h)
            rcases List.mem_cons.mp hx' with hxb | hxr
            · subst hxb
              exact hmin x (by simp)
            · exact hmin x (by simp [hxr])

/-- A pass never moves an element that is already a trailing minimum. -/
lemma bubblePass_append_min :
    ∀ n (l : List Suggestion) (m : Suggestion), l.length ≤ n →
      (∀ x ∈ l, m.score ≤ x.score) →
      bubblePass (l ++ [m]) = bubblePass l ++ [m] := by
  intro n
  induction n with
  | zero =>
      intro l m hl _
      have : l = [] := List.eq_nil_of_length_eq_zero (Nat.le_zero.mp hl)
      subst this
      simp [bubblePass_nil, bubblePass_one]
  | succ n ih =>
      intro l m hl hmin
      rcases l with _ | ⟨a, _ | ⟨b, rest⟩⟩
      · simp [bubblePass_nil, bubblePass_one]
      · have hma : m.score ≤ a.score := hmin a (by simp)
        show bubblePass (a :: [m]) = bubblePass [a] ++ [m]
        rw [bubblePass_cons2, if_neg (not_lt.mpr hma), bubblePass_one,
          bubblePass_one]
        rfl
      · simp only [List.length_cons] at hl
        have ha1 : (a :: rest).length ≤ n := by
          simp only [List.length_cons]
          omega
        have hb1 : (b :: rest).length ≤ n := by
          simp only [List.length_cons]
          omega
        have hma : ∀ x ∈ a :: rest, m.score ≤ x.score := by
          intro x hx
          rcases List.mem_cons.mp hx with h' | h'
          · subst h'
            exact hmin x (by simp)
          · exact hmin x (by simp [h'])
        have hmb : ∀ x ∈ b :: rest, m.score ≤ x.score := by
          intro x hx
          rcases List.mem_cons.mp hx with h' | h'
          · subst h'
            exact hmin x (by simp)
          · exact hmin x (by simp [h'])
        have h1 : (a :: b :: rest) ++ [m] = a :: b :: (rest ++ [m]) := rfl
        rw [h1, bubblePass_cons2, bubblePass_cons2]
        by_cases h : a.score < b.score
        · rw [if_pos h, if_pos h]
          have h2 : a :: (rest ++ [m]) = (a :: rest) ++ [m] := rfl
          rw [h2, ih (a :: rest) m ha1 hma]
          rfl
        · rw [if_neg h, if_neg h]
          have h2 : b :: (rest ++ [m]) = (b :: rest) ++ [m] := rfl
          rw [h2, ih (b :: rest) m hb1 hmb]
          rfl

lemma passes_append_min :
    ∀ k (l : List Suggestion) (m : Suggestion),
      (∀ x ∈ l, m.score ≤ x.score) →
      passes k (l ++ [m]) = passes k l ++ [m] := by
  intro k
  induction k with
  | zero => intro l m _; rfl
  | succ k ih =>
      intro l m hmin
      show passes k (bubblePass (l ++ [m])) = passes k (bubblePass l) ++ [m]
      rw [bubblePass_append_min l.length l m le_rfl hmin]
      exact ih (bubblePass l) m (fun x hx => hmin x (bubblePass_mem.mp hx))

lemma passes_perm : ∀ k (l : List Suggestion), List.Perm (passes k l) l := by
  intro k
  induction k with
  | zero => intro l; exact List.Perm.refl l
  | succ k ih =>
      intro l
      exact (ih (bubblePass l)).trans (bubblePass_perm l)

/-- `k` passes sort any list of length at most `k + 1` into descending
score order. -/
lemma passes_sorted :
    ∀ k (l : List Suggestion), l.length ≤ k + 1 →
      List.Sorted (fun x y => y.score ≤ x.score) (passes k l) := by
  intro k
  induction k with
  | zero =>
      intro l hl
      rcases l with _ | ⟨a, _ | ⟨b, rest⟩⟩
      · exact List.sorted_nil
      · exact List.sorted_singleton a
      · simp only [List.length_cons] at hl
        omega
  | succ k ih =>
      intro l hl
      rcases l with _ | ⟨a, rest⟩
      · show List.Sorted _ (passes k (bubblePass []))
        rw [bubblePass_nil]
        exact ih [] (by simp)
      · obtain ⟨l', m, heq, hmin⟩ := bubblePass_last_min
          (a :: rest).length (a :: rest) le_rfl (by simp)
        have hminl' : ∀ x ∈ l', m.score ≤ x.score := by
          intro x hx
          have hx2 : x ∈ bubblePass (a :: rest) := by
            rw [heq]
            exact List.mem_append_left _ hx
          exact hmin x (bubblePass_mem.mp hx2)
        show List.Sorted _ (passes k (bubblePass (a :: rest)))
        rw [heq, passes_append_min k l' m hminl']
        refine List.pairwise_append.mpr ⟨?_, by simp, ?_⟩
        · apply ih
          have hlen := bubblePass_length (a :: rest)
          rw [heq] at hlen
          simp only [List.length_append, List.length_singleton,
            List.length_cons] at hlen hl ⊢
          omega
        · intro x hx y hy
          rw [List.mem_singleton] at hy
          subst hy
          have hx' : x ∈ l' := ((passes_perm k l').mem_iff).mp hx
          exact hminl' x hx'

lemma sortSuggestionsByScore_sorted (l : List Suggestion) :
    List.Sorted (fun x y => y.score ≤ x.score) (sortSuggestionsByScore l) :=
  passes_sorted (l.length - 1) l (by omega)

/-- Truncation keeps sortedness. -/
lemma truncAfterSort_sorted (mx : Nat) (l : List Suggestion) :
    List.Sorted (fun x y => y.score ≤ x.score)
      (if mx < (sortSuggestionsByScore l).length
       then (sortSuggestionsByScore l).take mx
       else sortSuggestionsByScore l) := by
  split
  · exact List.Pairwise.sublist (List.take_sublist _ _)
      (sortSuggestionsByScore_sorted l)
  · exact sortSuggestionsByScore_sorted l

/-- Truncation bounds the length by the configured maximum. -/
lemma truncAfterSort_length (mx : Nat) (l : List Suggestion) :
    (if mx < (sortSuggestionsByScore l).length
     then (sortSuggestionsByScore l).take mx
     else sortSuggestionsByScore l).length ≤ mx := by
  split
  · simp only [List.length_take]
    omega
  · omega

end TrinoCli

namespace TrinoCli

lemma scanLeft_le (sql : List Char) : ∀ cp, scanLeft sql cp ≤ cp := by
  intro cp
  induction cp with
  | zero => exact le_refl 0
  | succ k ih =>
      rw [scanLeft]
      split
      · exact le_trans ih (Nat.le_succ k)
      · exact le_refl _

lemma scanLeft_word (sql : List Char) :
    ∀ cp i, scanLeft sql cp ≤ i → i < cp →
      isWordChar (sql.getD i ' ') = true := by
  intro cp
  induction cp with
  | zero => intro i h1 h2; omega
  | succ k ih =>
      intro i h1 h2
      rw [scanLeft] at h1
      by_cases hc : isWordChar (sql.getD k ' ') = true
      · rw [if_pos hc] at h1
        by_cases hik : i < k
        · exact ih i h1 hik
        · have : i = k := by omega
          subst this
          exact hc
      · rw [if_neg hc] at h1
        omega

lemma scanLeft_boundary (sql : List Char) :
    ∀ cp, scanLeft sql cp = 0
      ∨ isWordChar (sql.getD (scanLeft sql cp - 1) ' ') = false := by
  intro cp
  induction cp with
  | zero => left; rfl
  | succ k ih =>
      rw [scanLeft]
      by_cases hc : isWordChar (sql.getD k ' ') = true
      · rw [if_pos hc]
        exact ih
      · rw [if_neg hc]
        right
        simp only [Nat.add_sub_cancel]
        exact Bool.eq_false_iff.mpr hc

lemma scanRightAux_ge : ∀ (s : List Char) (k : Nat), k ≤ scanRightAux s k := by
  intro s
  induction s with
  | nil => intro k; exact le_refl k
  | cons c rest ih =>
      intro k
      rw [scanRightAux]
      split
      · exact le_trans (Nat.le_succ k) (ih (k + 1))
      · exact le_refl _

lemma scanRightAux_le :
    ∀ (s : List Char) (k : Nat), scanRightAux s k ≤ k + s.length := by
  intro s
  induction s with
  | nil => intro k; simp [scanRightAux]
  | cons c rest ih =>
      intro k
      rw [scanRightAux]
      split
      · have := ih (k + 1)
        simp only [List.length_cons]
        omega
      · simp only [List.length_cons]
        omega

lemma drop_cons_facts (sql : List Char) {c : Char} {rest : List Char}
    {k : Nat} (hs : c :: rest = sql.drop k) :
    k < sql.length ∧ sql.getD k ' ' = c ∧ rest = sql.drop (k + 1) := by
  have hk : k < sql.length := by
    by_contra hk
    push_neg at hk
    rw [List.drop_eq_nil_of_le hk] at hs
    exact List.noConfusion hs
  have h0 : sql[k]? = some c := by
    have hd := List.getElem?_drop sql k 0
    rw [← hs] at hd
    simpa using hd.symm
  refine ⟨hk, ?_, ?_⟩
  · rw [List.getD_eq_getElem?_getD, h0]
    rfl
  · have : sql.drop (k + 1) = (sql.drop k).drop 1 := by
      rw [List.drop_drop]
    rw [this, ← hs]
    rfl

lemma scanRight_word (sql : List Char) :
    ∀ (s : List Char) (k : Nat), s = sql.drop k →
      ∀ i, k ≤ i → i < scanRightAux s k →
        isWordChar (sql.getD i ' ') = true := by
  intro s
  induction s with
  | nil =>
      intro k hs i h1 h2
      rw [scanRightAux] at h2
      omega
  | cons c rest ih =>
      intro k hs i h1 h2
      obtain ⟨hk, hck, hrest⟩ := drop_cons_facts sql hs
      rw [scanRightAux] at h2
      by_cases hc : isWordChar c = true
      · rw [if_pos hc] at h2
        by_cases hik : k + 1 ≤ i
        · exact ih (k + 1) hrest i hik h2
        · have : i = k := by omega
          subst this
          rw [hck]
          exact hc
      · rw [if_neg hc] at h2
        omega

lemma scanRight_boundary (sql : List Char) :
    ∀ (s : List Char) (k : Nat), s = sql.drop k → k ≤ sql.length →
      scanRightAux s k = sql.length
        ∨ isWordChar (sql.getD (scanRightAux s k) ' ') = false := by
  intro s
  induction s with
  | nil =>
      intro k hs hk
      left
      rw [scanRightAux]
      have := List.drop_eq_nil_iff_le.mp hs.symm
      omega
  | cons c rest ih =>
      intro k hs hk
      obtain ⟨hklt, hck, hrest⟩ := drop_cons_facts sql hs
      rw [scanRightAux]
      by_cases hc : isWordChar c = true
      · rw [if_pos hc]
        exact ih (k + 1) hrest (by omega)
      · rw [if_neg hc]
        right
        rw [hck]
        exact Bool.eq_false_iff.mpr hc

lemma clampPos_idem (x : Int) (n : Nat) :
    clampPos ((clampPos x n : Nat) : Int) n = clampPos x n := by
  unfold clampPos
  split_ifs <;> omega

/-- C7: for every in-range cursor, the extracted word is the maximal run
of word characters spanning the cursor — extending to the left and to the
right of it — together with the run's start index; it is not cut off at
the cursor. -/
theorem c7_word_at_cursor (sql : List Char) (cursorPos : Int)
    (h1 : 1 ≤ cursorPos) (h2 : cursorPos ≤ (sql.length : Int)) :
    ∃ st en, st ≤ cursorPos.toNat ∧ cursorPos.toNat ≤ en
      ∧ en ≤ sql.length
      ∧ getWordAtCursor sql cursorPos = ((sql.drop st).take (en - st), st)
      ∧ (∀ i, st ≤ i → i < en → isWordChar (sql.getD i ' ') = true)
      ∧ (st = 0 ∨ isWordChar (sql.getD (st - 1) ' ') = false)
      ∧ (en = sql.length ∨ isWordChar (sql.getD en ' ') = false) := by
  have hguard : ¬(cursorPos ≤ 0 ∨ cursorPos > (sql.length : Int)) := by
    push_neg
    exact ⟨by omega, by omega⟩
  have hcple : cursorPos.toNat ≤ sql.length := by omega
  refine ⟨scanLeft sql cursorPos.toNat,
    scanRightAux (sql.drop cursorPos.toNat) cursorPos.toNat,
    scanLeft_le sql cursorPos.toNat, scanRightAux_ge _ _, ?_, ?_, ?_,
    scanLeft_boundary sql cursorPos.toNat,
    scanRight_boundary sql _ cursorPos.toNat rfl hcple⟩
  · have h3 := scanRightAux_le (sql.drop cursorPos.toNat) cursorPos.toNat
    rw [List.length_drop] at h3
    omega
  · unfold getWordAtCursor
    rw [if_neg hguard]
    unfold wordFromScans
    split
    · rename_i hle
      rw [Nat.sub_eq_zero_of_le hle]
      simp
    · rfl
  · intro i hsi hie
    by_cases hic : i < cursorPos.toNat
    · exact scanLeft_word sql cursorPos.toNat i hsi hic
    · exact scanRight_word sql (sql.drop cursorPos.toNat) cursorPos.toNat
        rfl i (by omega) hie

/-- Witness for C7 at sql = "abc", cursor 1. -/
theorem c7_word_at_cursor_witness :
    (1 ≤ (1 : Int) ∧ (1 : Int) ≤ (("abc".toList).length : Int))
    ∧ (∃ st en, st ≤ (1 : Int).toNat ∧ (1 : Int).toNat ≤ en
      ∧ en ≤ ("abc".toList).length
      ∧ getWordAtCursor "abc".toList 1
          = ((("abc".toList).drop st).take (en - st), st)
      ∧ (∀ i, st ≤ i → i < en →
          isWordChar (("abc".toList).getD i ' ') = true)
      ∧ (st = 0 ∨ isWordChar (("abc".toList).getD (st - 1) ' ') = false)
      ∧ (en = ("abc".toList).length
          ∨ isWordChar (("abc".toList).getD en ' ') = false)) :=
  ⟨⟨by decide, by decide⟩,
   c7_word_at_cursor "abc".toList 1 (by decide) (by decide)⟩

/-- Counterexample to C7 as stated: with sql = "abc" and the cursor at
offset 1, the extracted word is "abc" from index 0 — it includes the
characters after the cursor, so it is not the run ending at the cursor
(which would be "a"). -/
theorem c7_counterexample :
    getWordAtCursor "abc".toList 1 = ("abc".toList, 0)
    ∧ "abc".toList ≠ "a".toList := by
  decide

end TrinoCli

namespace TrinoCli

/-- Counterexample to C4 as stated: on input "SELECT a FROM sales." with
cursor 20, analyzeContext takes the FROM branch first ("sales." contains
no space), yielding SchemaName with empty schema — not TableName with
schema "sales". -/
theorem c4_counterexample :
    analyzeContext ("SELECT a FROM sales.".toList) 20
      = ⟨.SchemaName, [], []⟩
    ∧ (⟨.SchemaName, [], []⟩ : SqlContext)
        ≠ ⟨.TableName, "sales".toList, []⟩ := by
  decide

/-- C4 (amended): the actual classifier results on the six spec inputs,
for both halves of the code's context analysis (cursors clamped into
range as GetCompletions does: 34 → 33, 34 → 33, 37 → 36).
analyzeContext yields Column, Schema, Schema (not Table "sales"), and
Table "sales" on the last three; the token dispatch of
GetContextualSuggestions yields columns+functions, tables+schemas,
the general trie lookup, columns, the literal "BY", and columns. -/
theorem c4_context_results (sc : SchemaCache) :
    analyzeContext ("SELECT ".toList) 7 = ⟨.ColumnName, [], []⟩
    ∧ analyzeContext ("SELECT a FROM ".toList) 14 = ⟨.SchemaName, [], []⟩
    ∧ analyzeContext ("SELECT a FROM sales.".toList) 20
        = ⟨.SchemaName, [], []⟩
    ∧ analyzeContext ("SELECT a FROM sales.orders WHERE ".toList) 33
        = ⟨.TableName, "sales".toList, []⟩
    ∧ analyzeContext ("SELECT a FROM sales.orders ORDER ".toList) 33
        = ⟨.TableName, "sales".toList, []⟩
    ∧ analyzeContext ("SELECT a FROM sales.orders ORDER BY ".toList) 36
        = ⟨.TableName, "sales".toList, []⟩
    ∧ getContextualSuggestions ("SELECT ".toList) 7 sc
        = (getAllColumns sc.db).1 ++ selectFunctions
    ∧ getContextualSuggestions ("SELECT a FROM ".toList) 14 sc
        = (getAllTables sc.db).1 ++ (getAllSchemaQualifiedTables sc.db).1
            ++ (getSchemas sc.db).1
    ∧ getContextualSuggestions ("SELECT a FROM sales.".toList) 20 sc
        = Trie.getSuggestions sc.trie [] 50
    ∧ getContextualSuggestions
        ("SELECT a FROM sales.orders WHERE ".toList) 33 sc
        = (getAllColumns sc.db).1
    ∧ getContextualSuggestions
        ("SELECT a FROM sales.orders ORDER ".toList) 33 sc
        = ["BY".toList]
    ∧ getContextualSuggestions
        ("SELECT a FROM sales.orders ORDER BY ".toList) 36 sc
        = (getAllColumns sc.db).1 := by
  exact ⟨by decide, by decide, by decide, by decide, by decide, by decide,
    rfl, rfl, rfl, rfl, rfl, rfl⟩

/-- C6: every GetCompletions result is sorted by non-increasing score and
has at most maxSuggestions entries; NewAutocompleteService defaults
maxSuggestions to 20. -/
theorem c6_sorted_limited (ac : AutocompleteService) (sql : List Char)
    (cursorPos : Int) :
    List.Sorted (fun x y => y.score ≤ x.score)
      (getCompletions ac sql cursorPos).1
    ∧ (getCompletions ac sql cursorPos).1.length ≤ ac.maxSuggestions
    ∧ (∀ sc, (newAutocompleteService sc).maxSuggestions = 20) :=
  ⟨truncAfterSort_sorted _ _, truncAfterSort_length _ _, fun _ => rfl⟩

/-- C9: GetCompletions is total at the public interface — for every
string and every integer cursor position the error is nil, the cursor is
clamped into [0, len(sql)], and the result is the same as at the clamped
position. -/
theorem c9_total_clamped (ac : AutocompleteService) (sql : List Char)
    (cursorPos : Int) :
    (getCompletions ac sql cursorPos).2 = none
    ∧ clampPos cursorPos sql.length ≤ sql.length
    ∧ getCompletions ac sql cursorPos
        = getCompletions ac sql ((clampPos cursorPos sql.length : Nat) :
            Int) := by
  refine ⟨rfl, ?_, ?_⟩
  · unfold clampPos
    split_ifs <;> omega
  · show getCompletionsAt ac sql (clampPos cursorPos sql.length)
        = getCompletionsAt ac sql
            (clampPos ((clampPos cursorPos sql.length : Nat) : Int)
              sql.length)
    rw [clampPos_idem]

end TrinoCli
